import Mathlib

/-!
# Verification of `randomforest.py` (Elxse/music-genre-classification)

Shallow embedding of the random-forest implementation in `src/randomforest.py`.

Modelling conventions:
* Feature values and all arithmetic are rationals (`ℚ`); the Python source uses
  floats, and the numerical claims are stated "under exact (rational) arithmetic".
* A Python dict `{label: [vectors]}` is modelled as an association list
  `List (ℕ × List Vec)` in insertion order (Python dicts preserve insertion
  order, and `defaultdict(list)` appends new keys at the end).
* Calls to the global random generator (`rd.sample`, `rd.choice`) are modelled
  by explicit choice arguments ("oracles"): an index into the feature list and
  an index into the flattened point list for each candidate cut.
* Python exceptions (ZeroDivisionError, ValueError from `rd.sample`,
  IndexError) are modelled by `Option`: `none` is a raised exception.
* Division in `ℚ` is total (`x / 0 = 0`); wherever the Python code could
  actually divide by zero the embedding either returns `none` (for `score`) or
  the theorems carry hypotheses ruling the case out.
-/

abbrev Vec : Type := List ℚ

/-- The dataset representation: association list from label to the ordered list
of feature vectors carrying that label (Python: `dict` label → list of vectors). -/
abbrev LabelPartition : Type := List (ℕ × List Vec)

/-- Python `lenDictValues`: total number of vectors in the partition
(`sum(len(l) for l in dic.values())`). -/
def lenDictValues (dic : LabelPartition) : ℕ :=
  (dic.map (fun l => l.2.length)).sum

/-- Python `gini`: `probs = [len(L) for L in data.values()]`,
`probs = [p / sum(probs) for p in probs]`, `1 - sum(p ** 2 for p in probs)`. -/
def gini (data : LabelPartition) : ℚ :=
  let probs : List ℚ := data.map (fun L => (L.2.length : ℚ))
  let probs2 : List ℚ := probs.map (fun prob => prob / probs.sum)
  1 - (probs2.map (fun i => i ^ 2)).sum

/-- Python `infoGain`: `p = lenDictValues(c1) / lenDictValues(c)`;
`gini(c) - (p * gini(c1) + (1 - p) * gini(c2))`. -/
def infoGain (c c1 c2 : LabelPartition) : ℚ :=
  let p : ℚ := (lenDictValues c1 : ℚ) / (lenDictValues c : ℚ)
  gini c - (p * gini c1 + (1 - p) * gini c2)

/-- The flattened list of all vectors of the partition, in dict order
(Python: the `points` list built inside `generateCut` by `points.extend(line)`). -/
def flattenPoints (data : LabelPartition) : List Vec :=
  (data.map Prod.snd).flatten

/-- All (label, vector) pairs of the partition in dict order; this is the
flattening of the dataset that respects label grouping. -/
def flatPairs (data : LabelPartition) : List (ℕ × Vec) :=
  data.flatMap (fun kl => kl.2.map (fun v => (kl.1, v)))

/-- Python `generateCut(node, features)`.  The two random draws are made
explicit: `fIdx` is the index drawn by `rd.sample(features, 1)` and `pIdx` the
index drawn by `rd.choice(points)`.  Vector access `v[f]` is modelled totally
by `getD _ 0` (the Python code assumes the feature index is in range).
`c1`/`c2` are `defaultdict(list)`: a label appears in the output exactly when
at least one of its vectors was appended, in the input's key order. -/
def generateCut (data : LabelPartition) (features : List ℕ) (fIdx pIdx : ℕ) :
    LabelPartition × LabelPartition × ℕ × ℚ :=
  let random_feature := features.getD fIdx 0
  if data.length ≠ 0 then
    let points := flattenPoints data
    let decisional_value : ℚ := (points.getD pIdx []).getD random_feature 0
    let c1 := data.filterMap (fun kl =>
      let l := kl.2.filter (fun v => decide (v.getD random_feature 0 < decisional_value))
      if l.isEmpty then none else some (kl.1, l))
    let c2 := data.filterMap (fun kl =>
      let l := kl.2.filter (fun v => !decide (v.getD random_feature 0 < decisional_value))
      if l.isEmpty then none else some (kl.1, l))
    (c1, c2, random_feature, decisional_value)
  else ([], [], random_feature, 0)

/-- Python `bestCut(node, nb_cut, features)`.  The oracle gives, for the `i`-th
candidate (`i = 0` is the one drawn before the loop), the pair of random
indices consumed by `generateCut`.  The loop body skips a candidate whose `c1`
or `c2` dict is empty, and replaces the incumbent only on a strict `>`
comparison of information gains. -/
def bestCut (data : LabelPartition) (nb_cut : ℕ) (features : List ℕ)
    (oracle : ℕ → ℕ × ℕ) : ℚ × LabelPartition × LabelPartition × ℕ × ℚ :=
  let first := generateCut data features (oracle 0).1 (oracle 0).2
  let init : ℚ × LabelPartition × LabelPartition × ℕ × ℚ :=
    (infoGain data first.1 first.2.1, first)
  (List.range (nb_cut - 1)).foldl
    (fun best i =>
      let c := generateCut data features (oracle (i + 1)).1 (oracle (i + 1)).2
      if c.1.length = 0 ∨ c.2.1.length = 0 then best
      else
        let info := infoGain data c.1 c.2.1
        if best.1 < info then (info, c) else best)
    init

/-- Python `Node`: data, optional question `(feature, threshold)`, optional
left and right children.  The `father` back-reference is omitted: it is used
only for printing and is never read by the verified operations. -/
inductive Node : Type where
  | mk (data : LabelPartition) (question : Option (ℕ × ℚ))
       (left_son : Option Node) (right_son : Option Node)

def Node.data : Node → LabelPartition
  | Node.mk d _ _ _ => d

def Node.question : Node → Option (ℕ × ℚ)
  | Node.mk _ q _ _ => q

def Node.left_son : Node → Option Node
  | Node.mk _ _ l _ => l

def Node.right_son : Node → Option Node
  | Node.mk _ _ _ r => r

/-- Python `Node.depth`: 0 for a childless node, otherwise one more than the
maximum depth of the present children (an absent child contributes 0). -/
def Node.depth : Node → ℕ
  | Node.mk _ _ none none => 0
  | Node.mk _ _ (some a) none => a.depth + 1
  | Node.mk _ _ none (some b) => b.depth + 1
  | Node.mk _ _ (some a) (some b) => max a.depth b.depth + 1

/-- All nodes of the tree (the node itself and, recursively, the nodes of its
present children). -/
def Node.nodes : Node → List Node
  | Node.mk d q none none => [Node.mk d q none none]
  | Node.mk d q (some a) none => Node.mk d q (some a) none :: a.nodes
  | Node.mk d q none (some b) => Node.mk d q none (some b) :: b.nodes
  | Node.mk d q (some a) (some b) => Node.mk d q (some a) (some b) :: a.nodes ++ b.nodes

/-- Python `node.left_son == None and node.right_son == None`. -/
def Node.isLeaf (n : Node) : Bool :=
  n.left_son.isNone && n.right_son.isNone

/-- Python `partition(node, c1, c2, question)`: set the question and create the
two children holding `c1` and `c2` (the `father` back-references are omitted). -/
def partition (node : Node) (c1 c2 : LabelPartition) (question : ℕ × ℚ) : Node :=
  Node.mk node.data (some question)
    (some (Node.mk c1 none none none)) (some (Node.mk c2 none none none))

/-- Python `decisionTree(node, nb_cut_to_find_best, features, max_depth)`.

The path-indexed `oracle` supplies the random draws of every `bestCut` call in
the recursion tree (`[]` for this node, `false :: p` below the left child,
`true :: p` below the right child).  `max_depth` is a natural number (the
callers only pass non-negative depths).

Termination in Python: the function is only ever invoked on childless nodes
(the fresh root, and the fresh children created by `partition`), whose
`depth()` is 0, so the stop test `node.depth() == max_depth` necessarily fires
once the budget reaches 0.  The embedding recurses structurally on
`max_depth`; the extra `| 0 => node` arm is unreachable for childless input
nodes, because for them `node.depth = 0 = max_depth` already returned above. -/
def decisionTree (node : Node) (nb_cut_to_find_best : ℕ) (features : List ℕ)
    (oracle : List Bool → ℕ → ℕ × ℕ) (max_depth : ℕ) : Node :=
  let b := bestCut node.data nb_cut_to_find_best features (oracle [])
  if gini node.data = 0 ∨ b.1 = 0 ∨ node.depth = max_depth then node
  else
    match max_depth with
    | 0 => node
    | d + 1 =>
      -- `partition node c1 c2 question` followed by the two in-place recursive
      -- calls on the fresh children:
      Node.mk node.data (some (b.2.2.2.1, b.2.2.2.2))
        (some (decisionTree (Node.mk b.2.1 none none none) nb_cut_to_find_best
          features (fun p => oracle (false :: p)) d))
        (some (decisionTree (Node.mk b.2.2.1 none none none) nb_cut_to_find_best
          features (fun p => oracle (true :: p)) d))

/-- first index of the maximum of a list (`np.argmax`); 0 on the empty list
(where NumPy would raise). -/
def maxNat (l : List ℕ) : ℕ := l.foldr max 0

def argmaxIdx : List ℕ → ℕ
  | [] => 0
  | x :: xs => if x < maxNat xs then argmaxIdx xs + 1 else 0

/-- The label predicted at a node: `np.argmax([len(points) for points in
node.data.values()])`, then the key at that index.  First key of maximal
vector count, in dict order. -/
def majorityLabel (data : LabelPartition) : ℕ :=
  (data.getD (argmaxIdx (data.map (fun kl => kl.2.length))) (0, [])).1

/-- Python `classify(root, element)`.  The while loop descends while the
current node has a question, moving to the left child when
`element[feature] <= threshold` and to the right child otherwise, and stops
early (`exists_son = False`) as soon as the node it moved to is childless.
Moving to an absent child (`node = None`) makes Python crash on the next
attribute access; the embedding returns `none` there. -/
def classify : Node → Vec → Option ℕ
  | Node.mk data none _ _, _ => some (majorityLabel data)
  | Node.mk _ (some q) l r, element =>
    if element.getD q.1 0 ≤ q.2 then
      match l with
      | none => none
      | some n => if n.isLeaf then some (majorityLabel n.data) else classify n element
    else
      match r with
      | none => none
      | some n => if n.isLeaf then some (majorityLabel n.data) else classify n element

/-- Modelled from the spec (§4.4): the leaf reached by routing `element` from
`node`: while the current node has a SplitQuestion, go to the left child if
`vector[featureIndex] <= threshold`, else to the right child.  An absent
child stops the routing (only reachable on malformed trees). -/
def routeLeaf : Node → Vec → Node
  | Node.mk d none l r, _ => Node.mk d none l r
  | Node.mk d (some q) l r, element =>
    if element.getD q.1 0 ≤ q.2 then
      match l with
      | none => Node.mk d (some q) l r
      | some n => routeLeaf n element
    else
      match r with
      | none => Node.mk d (some q) l r
      | some n => routeLeaf n element

/-- The walk of `sampleDict`'s inner loop: scan `dic.items()` in order,
returning the label and vector at flat position `i`, decrementing `i` by each
skipped label's count.  `none` when `i` is past the end (the Python loop then
falls through appending nothing). -/
def lookupFlat : LabelPartition → ℕ → Option (ℕ × Vec)
  | [], _ => none
  | (k, v) :: rest, i =>
    if i < v.length then some (k, v.getD i []) else lookupFlat rest (i - v.length)

/-- `d[k].append(v)` on a `defaultdict(list)`: append to the existing entry of
`k`, or add a new entry `(k, [v])` at the end. -/
def appendTo : LabelPartition → ℕ → Vec → LabelPartition
  | [], k, v => [(k, [v])]
  | (k', l) :: rest, k, v =>
    if k' = k then (k', l ++ [v]) :: rest else (k', l) :: appendTo rest k v

/-- Python `sampleDict(dic, sample_size)`.  The randomness
`rd.sample(range(lenDictValues dic), sample_size)` is modelled by the explicit
index list `idx` (the theorems assume exactly what `rd.sample` guarantees:
distinct indices below the dataset size, `sample_size` of them); the guard
models the `ValueError` that `rd.sample` raises when the sample size exceeds
the population size. -/
def sampleDict (dic : LabelPartition) (sample_size : ℕ) (idx : List ℕ) :
    Option LabelPartition :=
  if lenDictValues dic < sample_size then none
  else some (idx.foldl (fun d i =>
    match lookupFlat dic i with
    | some kv => appendTo d kv.1 kv.2
    | none => d) [])

/-- Python `score(guessed_labels, true_labels)`: count the positions where the
labels agree, then divide by `len(guessed_labels)`.  `none` models the
`IndexError` when `true_labels` is shorter than `guessed_labels` and the
`ZeroDivisionError` of `score / n` when `guessed_labels` is empty. -/
def score (guessed_labels true_labels : List ℕ) : Option ℚ :=
  if true_labels.length < guessed_labels.length then none
  else
    let n := guessed_labels.length
    let s : ℚ := (List.range n).foldl
      (fun acc i => acc + if guessed_labels.getD i 0 = true_labels.getD i 0 then 1 else 0) 0
    if n = 0 then none
    else some (s / n)

/-! ## Spec-side definitions

These definitions follow the wording of the specification; the claim theorems
compare them with the embedded source functions above. -/

/-- The `nb_cut` candidate cuts drawn by `bestCut` (candidate `i` consumes the
`i`-th pair of random indices). -/
def cutCandidates (data : LabelPartition) (nb_cut : ℕ) (features : List ℕ)
    (oracle : ℕ → ℕ × ℕ) : List (LabelPartition × LabelPartition × ℕ × ℚ) :=
  (List.range nb_cut).map (fun i => generateCut data features (oracle i).1 (oracle i).2)

/-- A candidate cut one of whose sides holds no label at all. -/
def degenerateCut (c : LabelPartition × LabelPartition × ℕ × ℚ) : Bool :=
  decide (c.1.length = 0) || decide (c.2.1.length = 0)

/-- Modelled from the spec (§4.2): keep the candidate with strictly greatest
value, ties broken by first found — the incumbent is replaced only when a
later candidate compares strictly greater. -/
def firstStrictMax {α : Type} (f : α → ℚ) : α → List α → α
  | best, [] => best
  | best, c :: rest => firstStrictMax f (if f best < f c then c else best) rest

/-- Drop the labels that received no vector (a `defaultdict(list)` never holds
an empty entry). -/
def dropEmpties (P : LabelPartition) : LabelPartition :=
  P.filter (fun kl => !kl.2.isEmpty)

/-- Modelled from the spec (§8): `(left, right)` is an exact label-preserving
partition of `parent`'s vectors: some tables `L`, `R` with the same labels in
the same order as `parent` split each label's vector list exactly, and
`left`/`right` are `L`/`R` with the empty labels dropped (as a
`defaultdict(list)`-built partition never holds an empty entry). -/
def IsExactSplit (parent left right : LabelPartition) : Prop :=
  ∃ L R : LabelPartition,
    L.map Prod.fst = parent.map Prod.fst ∧
    R.map Prod.fst = parent.map Prod.fst ∧
    (∀ i < parent.length,
      ((parent.getD i (0, [])).2).Perm
        ((L.getD i (0, [])).2 ++ (R.getD i (0, [])).2)) ∧
    left = dropEmpties L ∧ right = dropEmpties R

/-- The number of positions where the two label lists agree (spec §4.6:
"fraction of positions where predicted[i] == trueLabels[i]"). -/
def matchCount (guessed_labels true_labels : List ℕ) : ℕ :=
  ((List.range guessed_labels.length).filter
    (fun i => guessed_labels.getD i 0 = true_labels.getD i 0)).length

/-- The per-label vector counts of a partition, as rationals (the first
`probs` list of `gini`). -/
def countsQ (data : LabelPartition) : List ℚ :=
  data.map (fun L => (L.2.length : ℚ))

/-- Gini impurity as a function of the per-label counts alone. -/
def giniC (l : List ℚ) : ℚ :=
  1 - (l.map (fun x => x ^ 2)).sum / l.sum ^ 2

/-! ## Helper lemmas: sums, `gini` arithmetic -/

lemma list_sum_map_div (l : List ℚ) (T : ℚ) :
    (l.map (fun x => x / T)).sum = l.sum / T := by
  induction l with
  | nil => simp
  | cons x xs ih => simp [ih, add_div]

lemma list_sum_map_div_sq (l : List ℚ) (T : ℚ) :
    (l.map (fun x => (x / T) ^ 2)).sum = (l.map (fun x => x ^ 2)).sum / T ^ 2 := by
  induction l with
  | nil => simp
  | cons x xs ih =>
    rw [List.map_cons, List.sum_cons, ih, List.map_cons, List.sum_cons, div_pow, add_div]

lemma countsQ_sum (data : LabelPartition) :
    (countsQ data).sum = (lenDictValues data : ℚ) := by
  induction data with
  | nil => simp [countsQ, lenDictValues]
  | cons kl rest ih =>
    simp only [countsQ, lenDictValues, List.map_cons, List.sum_cons] at ih ⊢
    rw [Nat.cast_add, ih]

lemma gini_eq (data : LabelPartition) :
    gini data =
      1 - ((countsQ data).map (fun x => x ^ 2)).sum / (lenDictValues data : ℚ) ^ 2 := by
  have h1 : gini data
      = 1 - (((countsQ data).map (fun x => x / (countsQ data).sum)).map
          (fun i => i ^ 2)).sum := rfl
  rw [h1, List.map_map]
  have h2 : ((fun i => i ^ 2) ∘ fun x => x / (countsQ data).sum)
      = fun x => (x / (countsQ data).sum) ^ 2 := rfl
  rw [h2, list_sum_map_div_sq, countsQ_sum]

lemma sum_filter_nonzero (l : List ℚ) :
    (l.filter (fun x => !decide (x = 0))).sum = l.sum := by
  induction l with
  | nil => simp
  | cons x xs ih =>
    by_cases hx : x = 0 <;> simp [List.filter_cons, hx, ih]

lemma sum_sq_filter_nonzero (l : List ℚ) :
    ((l.filter (fun x => !decide (x = 0))).map (fun x => x ^ 2)).sum
      = (l.map (fun x => x ^ 2)).sum := by
  induction l with
  | nil => simp
  | cons x xs ih =>
    by_cases hx : x = 0 <;> simp [List.filter_cons, hx, ih]

lemma countsQ_dropEmpties (P : LabelPartition) :
    countsQ (dropEmpties P) = (countsQ P).filter (fun x => !decide (x = 0)) := by
  induction P with
  | nil => rfl
  | cons kl rest ih =>
    have hcons : countsQ (kl :: rest) = ((kl.2.length : ℕ) : ℚ) :: countsQ rest := rfl
    by_cases hk : kl.2.isEmpty
    · have hlen : kl.2.length = 0 := by
        simpa [List.isEmpty_iff_length_eq_zero] using hk
      have hd : dropEmpties (kl :: rest) = dropEmpties rest := by
        simp [dropEmpties, List.filter_cons, hk]
      rw [hd, hcons, List.filter_cons, ih]
      simp [hlen]
    · have hlen : kl.2.length ≠ 0 := by
        simpa [List.isEmpty_iff_length_eq_zero] using hk
      have hcast : ((kl.2.length : ℕ) : ℚ) ≠ 0 := by exact_mod_cast hlen
      have hd : dropEmpties (kl :: rest) = kl :: dropEmpties rest := by
        simp [dropEmpties, List.filter_cons, hk]
      have hcons2 : countsQ (kl :: dropEmpties rest)
          = ((kl.2.length : ℕ) : ℚ) :: countsQ (dropEmpties rest) := rfl
      rw [hd, hcons, hcons2, List.filter_cons, ih]
      simp [hcast]

lemma lenDictValues_dropEmpties (P : LabelPartition) :
    lenDictValues (dropEmpties P) = lenDictValues P := by
  have h : ((lenDictValues (dropEmpties P) : ℕ) : ℚ) = (lenDictValues P : ℚ) := by
    rw [← countsQ_sum, ← countsQ_sum, countsQ_dropEmpties, sum_filter_nonzero]
  exact_mod_cast h

lemma gini_dropEmpties (P : LabelPartition) : gini (dropEmpties P) = gini P := by
  rw [gini_eq, gini_eq, countsQ_dropEmpties, sum_sq_filter_nonzero,
    lenDictValues_dropEmpties]

lemma gini_eq_giniC (data : LabelPartition) : gini data = giniC (countsQ data) := by
  rw [gini_eq, giniC, countsQ_sum]

lemma countsQ_nonneg (data : LabelPartition) : ∀ x ∈ countsQ data, 0 ≤ x := by
  intro x hx
  obtain ⟨kl, -, rfl⟩ := List.mem_map.mp hx
  exact_mod_cast Nat.zero_le kl.2.length

lemma sum_sq_nonneg_list (l : List ℚ) : 0 ≤ (l.map (fun x => x ^ 2)).sum := by
  apply List.sum_nonneg
  intro x hx
  obtain ⟨y, -, rfl⟩ := List.mem_map.mp hx
  exact sq_nonneg y

lemma sum_nonneg_eq_zero (l : List ℚ) (h0 : ∀ x ∈ l, 0 ≤ x) (hs : l.sum = 0) :
    ∀ x ∈ l, x = 0 := by
  induction l with
  | nil => simp
  | cons x xs ih =>
    have hxs : 0 ≤ xs.sum := List.sum_nonneg (fun y hy => h0 y (List.mem_cons_of_mem _ hy))
    have hx : 0 ≤ x := h0 x (List.mem_cons_self _ _)
    have hsum : x + xs.sum = 0 := by simpa using hs
    have hx0 : x = 0 := by linarith
    have hxs0 : xs.sum = 0 := by linarith
    intro y hy
    rcases List.mem_cons.mp hy with rfl | hy2
    · exact hx0
    · exact ih (fun z hz => h0 z (List.mem_cons_of_mem _ hz)) hxs0 y hy2

/-- For nonnegative entries, the sum of squares is at most the square of the sum. -/
lemma sum_sq_le_sq_sum (l : List ℚ) (h0 : ∀ x ∈ l, 0 ≤ x) :
    (l.map (fun x => x ^ 2)).sum ≤ l.sum ^ 2 := by
  induction l with
  | nil => simp
  | cons x xs ih =>
    have hx : 0 ≤ x := h0 x (List.mem_cons_self _ _)
    have hxs : 0 ≤ xs.sum := List.sum_nonneg (fun y hy => h0 y (List.mem_cons_of_mem _ hy))
    have ih2 := ih (fun y hy => h0 y (List.mem_cons_of_mem _ hy))
    simp only [List.map_cons, List.sum_cons]
    nlinarith [ih2, mul_nonneg hx hxs]

/-- Cauchy–Schwarz for lists: the square of the sum is at most the length
times the sum of squares. -/
lemma sq_sum_le_length_mul_sum_sq (l : List ℚ) :
    l.sum ^ 2 ≤ (l.length : ℚ) * (l.map (fun x => x ^ 2)).sum := by
  induction l with
  | nil => simp
  | cons x xs ih =>
    simp only [List.map_cons, List.sum_cons, List.length_cons]
    push_cast
    have hQ : 0 ≤ (xs.map (fun x => x ^ 2)).sum := sum_sq_nonneg_list xs
    by_cases h0 : xs.length = 0
    · have hxs : xs = [] := List.length_eq_zero.mp h0
      subst hxs
      simp
    · have hn : (0 : ℚ) < (xs.length : ℚ) := by
        exact_mod_cast Nat.pos_of_ne_zero h0
      have h2 : 0 ≤ ((xs.length : ℚ) * x - xs.sum) ^ 2 := sq_nonneg _
      have h3 : 0 ≤ ((xs.length : ℚ) + 1) *
          ((xs.length : ℚ) * (xs.map (fun x => x ^ 2)).sum - xs.sum ^ 2) := by
        apply mul_nonneg (by linarith)
        linarith [ih]
      have key : 0 ≤ (xs.length : ℚ) *
          (((xs.length : ℚ) + 1) * (x ^ 2 + (xs.map (fun x => x ^ 2)).sum)
            - (x + xs.sum) ^ 2) := by
        nlinarith [h2, h3]
      by_contra hcon
      push_neg at hcon
      have : (xs.length : ℚ) *
          (((xs.length : ℚ) + 1) * (x ^ 2 + (xs.map (fun x => x ^ 2)).sum)
            - (x + xs.sum) ^ 2) < 0 :=
        mul_neg_of_pos_of_neg hn (by linarith)
      linarith

lemma sum_zipWith_add (a b : List ℚ) (h : a.length = b.length) :
    (List.zipWith (fun x y => x + y) a b).sum = a.sum + b.sum := by
  induction a generalizing b with
  | nil =>
    cases b with
    | nil => simp
    | cons y ys => simp at h
  | cons x xs ih =>
    cases b with
    | nil => simp at h
    | cons y ys =>
      simp only [List.zipWith_cons_cons, List.sum_cons]
      rw [ih ys (by simpa using h)]
      ring

lemma sum_sq_zipWith_add (a b : List ℚ) (h : a.length = b.length) :
    ((List.zipWith (fun x y => x + y) a b).map (fun x => x ^ 2)).sum
      = (a.map (fun x => x ^ 2)).sum
        + 2 * (List.zipWith (fun x y => x * y) a b).sum
        + (b.map (fun x => x ^ 2)).sum := by
  induction a generalizing b with
  | nil =>
    cases b with
    | nil => simp
    | cons y ys => simp at h
  | cons x xs ih =>
    cases b with
    | nil => simp at h
    | cons y ys =>
      simp only [List.zipWith_cons_cons, List.map_cons, List.sum_cons]
      rw [ih ys (by simpa using h)]
      ring

lemma sum_sq_zipWith_cross (A B : ℚ) (a b : List ℚ) (h : a.length = b.length) :
    ((List.zipWith (fun x y => B * x - A * y) a b).map (fun x => x ^ 2)).sum
      = B ^ 2 * (a.map (fun x => x ^ 2)).sum
        - 2 * A * B * (List.zipWith (fun x y => x * y) a b).sum
        + A ^ 2 * (b.map (fun x => x ^ 2)).sum := by
  induction a generalizing b with
  | nil =>
    cases b with
    | nil => simp
    | cons y ys => simp at h
  | cons x xs ih =>
    cases b with
    | nil => simp at h
    | cons y ys =>
      simp only [List.zipWith_cons_cons, List.map_cons, List.sum_cons]
      rw [ih ys (by simpa using h)]
      ring

lemma zipWith_add_left_zero (a b : List ℚ) (h : a.length = b.length)
    (h0 : ∀ x ∈ a, x = 0) : List.zipWith (fun x y => x + y) a b = b := by
  induction a generalizing b with
  | nil =>
    cases b with
    | nil => simp
    | cons y ys => simp at h
  | cons x xs ih =>
    cases b with
    | nil => simp at h
    | cons y ys =>
      have hx : x = 0 := h0 x (List.mem_cons_self _ _)
      simp only [List.zipWith_cons_cons, hx, zero_add, List.cons.injEq, true_and]
      exact ih ys (by simpa using h) (fun z hz => h0 z (List.mem_cons_of_mem _ hz))

lemma lenDictValues_pos_of_dropEmpties (data : LabelPartition)
    (hk : 1 ≤ (dropEmpties data).length) : 0 < lenDictValues data := by
  have hne : dropEmpties data ≠ [] := by
    intro h
    rw [h] at hk
    simp at hk
  obtain ⟨kl, hmem⟩ := List.exists_mem_of_ne_nil _ hne
  have hkl : kl ∈ data ∧ ¬kl.2.isEmpty := by
    have := List.mem_filter.mp hmem
    simpa using this
  have hlen : 1 ≤ kl.2.length := by
    rcases Nat.eq_zero_or_pos kl.2.length with h | h
    · exact absurd (by simpa [List.isEmpty_iff_length_eq_zero] using h) hkl.2
    · exact h
  have hmemmap : kl.2.length ∈ data.map (fun l => l.2.length) :=
    List.mem_map.mpr ⟨kl, hkl.1, rfl⟩
  have := List.single_le_sum (l := data.map (fun l => l.2.length))
    (fun x _ => Nat.zero_le x) _ hmemmap
  unfold lenDictValues
  omega

lemma zipWith_add_right_zero (a b : List ℚ) (h : a.length = b.length)
    (h0 : ∀ x ∈ b, x = 0) : List.zipWith (fun x y => x + y) a b = a := by
  induction a generalizing b with
  | nil =>
    cases b with
    | nil => simp
    | cons y ys => simp at h
  | cons x xs ih =>
    cases b with
    | nil => simp at h
    | cons y ys =>
      have hy : y = 0 := h0 y (List.mem_cons_self _ _)
      simp only [List.zipWith_cons_cons, hy, add_zero, List.cons.injEq, true_and]
      exact ih ys (by simpa using h) (fun z hz => h0 z (List.mem_cons_of_mem _ hz))

/-! ## C8: range of the Gini impurity -/

/-- C8: under exact rational arithmetic, for a `LabelPartition` with distinct
labels (`Nodup` keys, as a Python dict guarantees) in which `k ≥ 1` labels
have at least one vector (`k = (dropEmpties data).length`), `gini` lies in
`[0, 1 - 1/k]`; when exactly one label is present the impurity is 0. -/
theorem gini_range (data : LabelPartition) (hnd : (data.map Prod.fst).Nodup)
    (hk : 1 ≤ (dropEmpties data).length) :
    0 ≤ gini data ∧ gini data ≤ 1 - 1 / ((dropEmpties data).length : ℚ) ∧
      ((dropEmpties data).length = 1 → gini data = 0) := by
  have hTnat : 0 < lenDictValues data := lenDictValues_pos_of_dropEmpties data hk
  have hT : (0 : ℚ) < (countsQ data).sum := by
    rw [countsQ_sum]
    exact_mod_cast hTnat
  have hS2le : ((countsQ data).map (fun x => x ^ 2)).sum ≤ (countsQ data).sum ^ 2 :=
    sum_sq_le_sq_sum _ (countsQ_nonneg data)
  have hlow : 0 ≤ gini data := by
    rw [gini_eq_giniC, giniC]
    have : ((countsQ data).map (fun x => x ^ 2)).sum / (countsQ data).sum ^ 2 ≤ 1 :=
      (div_le_one (by positivity)).mpr hS2le
    linarith
  have hklen : (countsQ (dropEmpties data)).length = (dropEmpties data).length := by
    simp [countsQ]
  have hkQ : (0 : ℚ) < ((dropEmpties data).length : ℚ) := by
    exact_mod_cast Nat.lt_of_lt_of_le Nat.zero_lt_one hk
  have hcauchy : (countsQ (dropEmpties data)).sum ^ 2
      ≤ ((dropEmpties data).length : ℚ)
        * ((countsQ (dropEmpties data)).map (fun x => x ^ 2)).sum := by
    have := sq_sum_le_length_mul_sum_sq (countsQ (dropEmpties data))
    rwa [hklen] at this
  have hsum_eq : (countsQ (dropEmpties data)).sum = (countsQ data).sum := by
    rw [countsQ_dropEmpties, sum_filter_nonzero]
  have hsq_eq : ((countsQ (dropEmpties data)).map (fun x => x ^ 2)).sum
      = ((countsQ data).map (fun x => x ^ 2)).sum := by
    rw [countsQ_dropEmpties, sum_sq_filter_nonzero]
  have hcauchy2 : (countsQ data).sum ^ 2
      ≤ ((dropEmpties data).length : ℚ) * ((countsQ data).map (fun x => x ^ 2)).sum := by
    rw [← hsum_eq, ← hsq_eq]
    exact hcauchy
  have hfrac : 1 / ((dropEmpties data).length : ℚ)
      ≤ ((countsQ data).map (fun x => x ^ 2)).sum / (countsQ data).sum ^ 2 := by
    rw [div_le_div_iff hkQ (by positivity)]
    calc 1 * (countsQ data).sum ^ 2 = (countsQ data).sum ^ 2 := one_mul _
    _ ≤ ((dropEmpties data).length : ℚ) * ((countsQ data).map (fun x => x ^ 2)).sum :=
        hcauchy2
    _ = ((countsQ data).map (fun x => x ^ 2)).sum * ((dropEmpties data).length : ℚ) :=
        mul_comm _ _
  have hup : gini data ≤ 1 - 1 / ((dropEmpties data).length : ℚ) := by
    rw [gini_eq_giniC, giniC]
    linarith
  refine ⟨hlow, hup, fun h1 => ?_⟩
  have : gini data ≤ 0 := by
    rw [h1] at hup
    simpa using hup
  linarith

/-- Witness for C8 at the two-label partition `{0: [[1]], 1: [[2]]}`. -/
theorem gini_range_witness :
    ((([(0, [[(1 : ℚ)]]), (1, [[2]])] : LabelPartition)).map Prod.fst).Nodup ∧
    1 ≤ (dropEmpties ([(0, [[(1 : ℚ)]]), (1, [[2]])] : LabelPartition)).length ∧
    (0 ≤ gini ([(0, [[(1 : ℚ)]]), (1, [[2]])] : LabelPartition) ∧
      gini ([(0, [[(1 : ℚ)]]), (1, [[2]])] : LabelPartition)
        ≤ 1 - 1 / ((dropEmpties ([(0, [[(1 : ℚ)]]), (1, [[2]])] : LabelPartition)).length : ℚ) ∧
      ((dropEmpties ([(0, [[(1 : ℚ)]]), (1, [[2]])] : LabelPartition)).length = 1 →
        gini ([(0, [[(1 : ℚ)]]), (1, [[2]])] : LabelPartition) = 0)) :=
  ⟨by decide, by decide, gini_range _ (by decide) (by decide)⟩

/-! ## C7: nonnegativity of the information gain -/

/-- Count-level core of C7: splitting a count vector `n = a + b` (pointwise)
into `a` and `b` never increases weighted Gini impurity. -/
lemma giniC_gain_nonneg (a b : List ℚ) (hab : a.length = b.length)
    (ha0 : ∀ x ∈ a, 0 ≤ x) (hb0 : ∀ x ∈ b, 0 ≤ x)
    (hT : 0 < a.sum + b.sum) :
    0 ≤ giniC (List.zipWith (fun x y => x + y) a b)
      - (a.sum / (a.sum + b.sum) * giniC a
        + (1 - a.sum / (a.sum + b.sum)) * giniC b) := by
  by_cases hA : a.sum = 0
  · have hzw : List.zipWith (fun x y => x + y) a b = b :=
      zipWith_add_left_zero a b hab (sum_nonneg_eq_zero a ha0 hA)
    rw [hzw, hA]
    simp
  · by_cases hB : b.sum = 0
    · have hzw : List.zipWith (fun x y => x + y) a b = a :=
        zipWith_add_right_zero a b hab (sum_nonneg_eq_zero b hb0 hB)
      rw [hzw, hB, add_zero, div_self hA]
      ring_nf
      simp
    · have hApos : 0 < a.sum := lt_of_le_of_ne (List.sum_nonneg ha0) (Ne.symm hA)
      have hBpos : 0 < b.sum := lt_of_le_of_ne (List.sum_nonneg hb0) (Ne.symm hB)
      have hTne : a.sum + b.sum ≠ 0 := ne_of_gt hT
      have key : giniC (List.zipWith (fun x y => x + y) a b)
          - (a.sum / (a.sum + b.sum) * giniC a
            + (1 - a.sum / (a.sum + b.sum)) * giniC b)
          = ((List.zipWith (fun x y => b.sum * x - a.sum * y) a b).map
              (fun x => x ^ 2)).sum / (a.sum * b.sum * (a.sum + b.sum) ^ 2) := by
        rw [giniC, giniC, giniC, sum_sq_zipWith_add a b hab, sum_zipWith_add a b hab,
          sum_sq_zipWith_cross a.sum b.sum a b hab]
        field_simp
        ring
      rw [key]
      apply div_nonneg (sum_sq_nonneg_list _)
      positivity

/-- C7: under exact rational arithmetic, the information gain of any exact
label-preserving split of a non-empty parent partition is nonnegative. -/
theorem infoGain_nonneg (parent left right : LabelPartition)
    (hT : 0 < lenDictValues parent) (hs : IsExactSplit parent left right) :
    0 ≤ infoGain parent left right := by
  obtain ⟨L, R, hLf, hRf, hperm, hleft, hright⟩ := hs
  have hLlen : L.length = parent.length := by
    have := congrArg List.length hLf
    simpa using this
  have hRlen : R.length = parent.length := by
    have := congrArg List.length hRf
    simpa using this
  have hab : (countsQ L).length = (countsQ R).length := by
    simp [countsQ, hLlen, hRlen]
  have hn : countsQ parent
      = List.zipWith (fun x y => x + y) (countsQ L) (countsQ R) := by
    apply List.ext_getElem
    · simp [countsQ, hLlen, hRlen]
    · intro i h1 h2
      have hip : i < parent.length := by simpa [countsQ] using h1
      have hiL : i < L.length := by omega
      have hiR : i < R.length := by omega
      have hp := hperm i hip
      rw [List.getD_eq_getElem parent (0, ([] : List Vec)) hip,
        List.getD_eq_getElem L (0, ([] : List Vec)) hiL,
        List.getD_eq_getElem R (0, ([] : List Vec)) hiR] at hp
      have hplen := hp.length_eq
      rw [List.length_append] at hplen
      simp only [countsQ, List.getElem_map, List.getElem_zipWith]
      rw [hplen]
      push_cast
      ring
  have hIG : infoGain parent left right
      = gini parent - ((lenDictValues left : ℚ) / (lenDictValues parent : ℚ) * gini left
        + (1 - (lenDictValues left : ℚ) / (lenDictValues parent : ℚ)) * gini right) := rfl
  have hlenleft : ((lenDictValues left : ℕ) : ℚ) = (countsQ L).sum := by
    rw [hleft, ← countsQ_sum, countsQ_dropEmpties, sum_filter_nonzero]
  have hlenparent : ((lenDictValues parent : ℕ) : ℚ) = (countsQ L).sum + (countsQ R).sum := by
    rw [← countsQ_sum, hn, sum_zipWith_add _ _ hab]
  have hgl : gini left = giniC (countsQ L) := by
    rw [hleft, gini_dropEmpties, gini_eq_giniC]
  have hgr : gini right = giniC (countsQ R) := by
    rw [hright, gini_dropEmpties, gini_eq_giniC]
  have hgp : gini parent = giniC (List.zipWith (fun x y => x + y) (countsQ L) (countsQ R)) := by
    rw [gini_eq_giniC, hn]
  rw [hIG, hlenleft, hlenparent, hgl, hgr, hgp]
  apply giniC_gain_nonneg _ _ hab (countsQ_nonneg L) (countsQ_nonneg R)
  rw [← hlenparent]
  exact_mod_cast hT

/-- Witness for C7: the parent `{0: [[1]], 1: [[2]]}` split exactly into
`{0: [[1]]}` and `{1: [[2]]}`. -/
theorem infoGain_nonneg_witness :
    0 < lenDictValues ([(0, [[(1 : ℚ)]]), (1, [[2]])] : LabelPartition) ∧
    IsExactSplit ([(0, [[(1 : ℚ)]]), (1, [[2]])] : LabelPartition)
      ([(0, [[(1 : ℚ)]])] : LabelPartition) ([(1, [[(2 : ℚ)]])] : LabelPartition) ∧
    0 ≤ infoGain ([(0, [[(1 : ℚ)]]), (1, [[2]])] : LabelPartition)
      ([(0, [[(1 : ℚ)]])] : LabelPartition) ([(1, [[(2 : ℚ)]])] : LabelPartition) := by
  have hs : IsExactSplit ([(0, [[(1 : ℚ)]]), (1, [[2]])] : LabelPartition)
      ([(0, [[(1 : ℚ)]])] : LabelPartition) ([(1, [[(2 : ℚ)]])] : LabelPartition) := by
    refine ⟨[(0, [[(1 : ℚ)]]), (1, [])], [(0, []), (1, [[(2 : ℚ)]])], by decide, by decide,
      ?_, by decide, by decide⟩
    intro i hi
    have hi2 : i < 2 := by simpa using hi
    interval_cases i <;> decide
  exact ⟨by decide, hs, infoGain_nonneg _ _ _ (by decide) hs⟩

/-! ## C3: `score` -/

lemma foldl_count_eq (L : List ℕ) (q : ℕ → Prop) [DecidablePred q] (init : ℚ) :
    L.foldl (fun acc i => acc + if q i then 1 else 0) init
      = init + ((L.filter (fun i => decide (q i))).length : ℚ) := by
  induction L generalizing init with
  | nil => simp
  | cons x xs ih =>
    rw [List.foldl_cons, ih, List.filter_cons]
    by_cases hx : q x
    · have hd : decide (q x) = true := by simpa using hx
      rw [if_pos hx, if_pos hd]
      push_cast [List.length_cons]
      ring
    · have hd : ¬ decide (q x) = true := by simpa using hx
      rw [if_neg hx, if_neg hd]
      ring

/-- C3 counterexample: on an empty predicted sequence `score` does not return
0 — the Python code raises `ZeroDivisionError` at `score / n` (modelled by
`none`). -/
theorem score_empty_counterexample :
    score [] [] = none ∧ score [] [] ≠ some 0 := by
  constructor
  · rfl
  · decide

/-- C3 (amended): for equal-length, non-empty label sequences `score` returns
the fraction of positions where the two sequences agree; on an empty predicted
sequence it fails with a division-by-zero error (`none`) instead of
returning 0. -/
theorem score_eq_fraction (g t : List ℕ) (hlen : g.length = t.length)
    (hne : g ≠ []) :
    score g t = some ((matchCount g t : ℚ) / (g.length : ℚ)) := by
  have hrfl : score g t
      = if t.length < g.length then none
        else if g.length = 0 then none
        else some ((List.range g.length).foldl
          (fun acc i => acc + if g.getD i 0 = t.getD i 0 then 1 else 0) 0
            / (g.length : ℚ)) := rfl
  have h1 : ¬ t.length < g.length := by omega
  have hn : g.length ≠ 0 := fun h => hne (List.length_eq_zero.mp h)
  rw [hrfl, if_neg h1, if_neg hn,
    foldl_count_eq (List.range g.length) (fun i => g.getD i 0 = t.getD i 0) 0]
  rw [zero_add]
  rfl

/-- Witness for C3 (amended) at the spec's own example:
`score([1,0,1,1], [1,1,1,0]) = 1/2`. -/
theorem score_eq_fraction_witness :
    ([1, 0, 1, 1] : List ℕ).length = ([1, 1, 1, 0] : List ℕ).length ∧
    ([1, 0, 1, 1] : List ℕ) ≠ [] ∧
    score [1, 0, 1, 1] [1, 1, 1, 0]
      = some ((matchCount [1, 0, 1, 1] [1, 1, 1, 0] : ℚ)
          / (([1, 0, 1, 1] : List ℕ).length : ℚ)) ∧
    score [1, 0, 1, 1] [1, 1, 1, 0] = some (1 / 2) :=
  ⟨by decide, by decide, score_eq_fraction _ _ (by decide) (by decide),
    by norm_num [score, List.range_succ]⟩


/-! ## C4: `generateCut` -/

lemma flatPairs_cons (kl : ℕ × List Vec) (rest : LabelPartition) :
    flatPairs (kl :: rest) = kl.2.map (fun v => (kl.1, v)) ++ flatPairs rest := rfl

lemma flattenPoints_eq_map_flatPairs (P : LabelPartition) :
    flattenPoints P = (flatPairs P).map Prod.snd := by
  induction P with
  | nil => rfl
  | cons kl rest ih =>
    rw [flatPairs_cons, List.map_append, List.map_map]
    have h1 : flattenPoints (kl :: rest) = kl.2 ++ flattenPoints rest := by
      simp [flattenPoints]
    rw [h1, ih]
    congr 1
    simp

lemma mem_flattenPoints_iff (P : LabelPartition) (v : Vec) :
    v ∈ flattenPoints P ↔ ∃ k, (k, v) ∈ flatPairs P := by
  rw [flattenPoints_eq_map_flatPairs]
  constructor
  · intro hv
    obtain ⟨p, hp, rfl⟩ := List.mem_map.mp hv
    exact ⟨p.1, hp⟩
  · rintro ⟨k, hk⟩
    exact List.mem_map.mpr ⟨(k, v), hk, rfl⟩

/-- Flattening the per-label filtered split (dropping emptied labels, as the
`defaultdict` construction does) is filtering the flattened pairs. -/
lemma flatPairs_filterSplit (data : LabelPartition) (q : Vec → Bool) :
    flatPairs (data.filterMap (fun kl =>
        if (kl.2.filter q).isEmpty then none else some (kl.1, kl.2.filter q)))
      = (flatPairs data).filter (fun p => q p.2) := by
  induction data with
  | nil => rfl
  | cons kl rest ih =>
    rw [flatPairs_cons, List.filter_append]
    have hmapfilter : (kl.2.map (fun v => (kl.1, v))).filter (fun p => q p.2)
        = (kl.2.filter q).map (fun v => (kl.1, v)) := by
      rw [List.filter_map]
      rfl
    by_cases he : (kl.2.filter q).isEmpty
    · rw [List.filterMap_cons_none (by simp [he]), ih, hmapfilter]
      have hnil : kl.2.filter q = [] := by simpa [List.isEmpty_iff] using he
      rw [hnil]
      rfl
    · have hstep : List.filterMap (fun e =>
          if (e.2.filter q).isEmpty then none else some (e.1, e.2.filter q))
            (kl :: rest)
          = (kl.1, kl.2.filter q) :: List.filterMap (fun e =>
              if (e.2.filter q).isEmpty then none else some (e.1, e.2.filter q)) rest :=
        List.filterMap_cons_some (by simp [he])
      rw [hstep, flatPairs_cons, ih, hmapfilter]

lemma generateCut_eq (data : LabelPartition) (features : List ℕ) (fIdx pIdx : ℕ)
    (hne : data.length ≠ 0) :
    generateCut data features fIdx pIdx
      = (data.filterMap (fun e =>
            if (e.2.filter (fun v => decide (v.getD (features.getD fIdx 0) 0
                < ((flattenPoints data).getD pIdx []).getD (features.getD fIdx 0) 0))).isEmpty
            then none
            else some (e.1, e.2.filter (fun v => decide (v.getD (features.getD fIdx 0) 0
                < ((flattenPoints data).getD pIdx []).getD (features.getD fIdx 0) 0)))),
          data.filterMap (fun e =>
            if (e.2.filter (fun v => !decide (v.getD (features.getD fIdx 0) 0
                < ((flattenPoints data).getD pIdx []).getD (features.getD fIdx 0) 0))).isEmpty
            then none
            else some (e.1, e.2.filter (fun v => !decide (v.getD (features.getD fIdx 0) 0
                < ((flattenPoints data).getD pIdx []).getD (features.getD fIdx 0) 0)))),
          features.getD fIdx 0,
          ((flattenPoints data).getD pIdx []).getD (features.getD fIdx 0) 0) := by
  simp only [generateCut, if_pos hne]

/-- C4: for a partition with at least one vector and a feature index drawn
from `allowedFeatures`, `generateCut` returns the drawn feature, a threshold
equal to that feature's value in one sampled vector of the partition, and the
split of the vectors by `value < threshold` (left) / `value ≥ threshold`
(right), each vector keeping its original label; the sampled vector itself
routes right; and on the empty partition it returns two empty partitions and
threshold 0. -/
theorem generateCut_spec (data : LabelPartition) (features : List ℕ) (fIdx pIdx : ℕ)
    (hf : fIdx < features.length) (hp : pIdx < (flattenPoints data).length) :
    ∃ c1 c2 t,
      generateCut data features fIdx pIdx = (c1, c2, features.getD fIdx 0, t) ∧
      features.getD fIdx 0 ∈ features ∧
      (flattenPoints data).getD pIdx [] ∈ flattenPoints data ∧
      t = ((flattenPoints data).getD pIdx []).getD (features.getD fIdx 0) 0 ∧
      (∀ k v, (k, v) ∈ flatPairs c1 ↔
        ((k, v) ∈ flatPairs data ∧ v.getD (features.getD fIdx 0) 0 < t)) ∧
      (∀ k v, (k, v) ∈ flatPairs c2 ↔
        ((k, v) ∈ flatPairs data ∧ ¬ v.getD (features.getD fIdx 0) 0 < t)) ∧
      (flattenPoints data).getD pIdx [] ∈ flattenPoints c2 ∧
      (∀ features2 fI2 pI2, generateCut [] features2 fI2 pI2
        = ([], [], features2.getD fI2 0, 0)) := by
  have hne : data.length ≠ 0 := by
    intro h0
    have hdnil : data = [] := List.length_eq_zero.mp h0
    subst hdnil
    simp [flattenPoints] at hp
  have hg := generateCut_eq data features fIdx pIdx hne
  have hv0 : (flattenPoints data).getD pIdx [] ∈ flattenPoints data := by
    rw [List.getD_eq_getElem _ [] hp]
    exact List.getElem_mem hp
  have hfm : features.getD fIdx 0 ∈ features := by
    rw [List.getD_eq_getElem features 0 hf]
    exact List.getElem_mem hf
  have hc1 : ∀ k v, (k, v) ∈ flatPairs (generateCut data features fIdx pIdx).1 ↔
      ((k, v) ∈ flatPairs data ∧ v.getD (features.getD fIdx 0) 0
        < ((flattenPoints data).getD pIdx []).getD (features.getD fIdx 0) 0) := by
    intro k v
    rw [hg]
    rw [flatPairs_filterSplit data (fun w => decide (w.getD (features.getD fIdx 0) 0
      < ((flattenPoints data).getD pIdx []).getD (features.getD fIdx 0) 0))]
    rw [List.mem_filter]
    simp
  have hc2 : ∀ k v, (k, v) ∈ flatPairs (generateCut data features fIdx pIdx).2.1 ↔
      ((k, v) ∈ flatPairs data ∧ ¬ v.getD (features.getD fIdx 0) 0
        < ((flattenPoints data).getD pIdx []).getD (features.getD fIdx 0) 0) := by
    intro k v
    rw [hg]
    rw [flatPairs_filterSplit data (fun w => !decide (w.getD (features.getD fIdx 0) 0
      < ((flattenPoints data).getD pIdx []).getD (features.getD fIdx 0) 0))]
    rw [List.mem_filter]
    simp
  have hroute : (flattenPoints data).getD pIdx []
      ∈ flattenPoints (generateCut data features fIdx pIdx).2.1 := by
    obtain ⟨k0, hk0⟩ := (mem_flattenPoints_iff data _).mp hv0
    apply (mem_flattenPoints_iff _ _).mpr
    exact ⟨k0, (hc2 k0 _).mpr ⟨hk0, lt_irrefl _⟩⟩
  refine ⟨(generateCut data features fIdx pIdx).1,
    (generateCut data features fIdx pIdx).2.1,
    ((flattenPoints data).getD pIdx []).getD (features.getD fIdx 0) 0,
    ?_, hfm, hv0, rfl, hc1, hc2, hroute, fun features2 fI2 pI2 => rfl⟩
  rw [hg]

/-- Witness for C4 at the partition `{0: [[1],[3]], 1: [[2]]}`, feature list
`[0]`, drawing feature index 0 and point index 0. -/
theorem generateCut_spec_witness :
    (0 < ([0] : List ℕ).length) ∧
    (0 < (flattenPoints ([(0, [[1], [3]]), (1, [[2]])] : LabelPartition)).length) ∧
    (∃ c1 c2 t,
      generateCut ([(0, [[1], [3]]), (1, [[2]])] : LabelPartition) [0] 0 0
        = (c1, c2, ([0] : List ℕ).getD 0 0, t) ∧
      ([0] : List ℕ).getD 0 0 ∈ ([0] : List ℕ) ∧
      (flattenPoints ([(0, [[1], [3]]), (1, [[2]])] : LabelPartition)).getD 0 []
        ∈ flattenPoints ([(0, [[1], [3]]), (1, [[2]])] : LabelPartition) ∧
      t = ((flattenPoints ([(0, [[1], [3]]), (1, [[2]])] : LabelPartition)).getD 0 []).getD
        (([0] : List ℕ).getD 0 0) 0 ∧
      (∀ k v, (k, v) ∈ flatPairs c1 ↔
        ((k, v) ∈ flatPairs ([(0, [[1], [3]]), (1, [[2]])] : LabelPartition) ∧
          v.getD (([0] : List ℕ).getD 0 0) 0 < t)) ∧
      (∀ k v, (k, v) ∈ flatPairs c2 ↔
        ((k, v) ∈ flatPairs ([(0, [[1], [3]]), (1, [[2]])] : LabelPartition) ∧
          ¬ v.getD (([0] : List ℕ).getD 0 0) 0 < t)) ∧
      (flattenPoints ([(0, [[1], [3]]), (1, [[2]])] : LabelPartition)).getD 0 []
        ∈ flattenPoints c2 ∧
      (∀ features2 fI2 pI2, generateCut [] features2 fI2 pI2
        = ([], [], features2.getD fI2 0, 0))) :=
  ⟨by decide, by decide, generateCut_spec _ _ _ _ (by decide) (by decide)⟩

/-! ## C9: `sampleDict` -/

lemma lenDictValues_cons (kl : ℕ × List Vec) (rest : LabelPartition) :
    lenDictValues (kl :: rest) = kl.2.length + lenDictValues rest := rfl

lemma lenDictValues_eq_flatPairs_length (d : LabelPartition) :
    lenDictValues d = (flatPairs d).length := by
  induction d with
  | nil => rfl
  | cons kl rest ih =>
    rw [lenDictValues_cons, flatPairs_cons, List.length_append, List.length_map, ih]

lemma lookupFlat_eq (dic : LabelPartition) (i : ℕ) (h : i < lenDictValues dic) :
    lookupFlat dic i = some ((flatPairs dic).getD i (0, [])) := by
  induction dic generalizing i with
  | nil => simp [lenDictValues] at h
  | cons kl rest ih =>
    obtain ⟨k1, l1⟩ := kl
    by_cases hi : i < l1.length
    · have hstep : lookupFlat ((k1, l1) :: rest) i = some (k1, l1.getD i []) := by
        rw [lookupFlat, if_pos hi]
      rw [hstep, flatPairs_cons]
      have himap : i < (l1.map (fun v => ((k1, l1).1, v))).length := by
        simpa using hi
      rw [List.getD_append _ _ _ _ himap, List.getD_eq_getElem _ _ himap,
        List.getElem_map, ← List.getD_eq_getElem l1 [] hi]
    · have hstep : lookupFlat ((k1, l1) :: rest) i = lookupFlat rest (i - l1.length) := by
        rw [lookupFlat, if_neg hi]
      have hrest : i - l1.length < lenDictValues rest := by
        rw [lenDictValues_cons] at h
        simp at h
        omega
      rw [hstep, ih _ hrest, flatPairs_cons,
        List.getD_append_right _ _ _ _ (by simpa using Nat.le_of_not_lt hi)]
      simp

lemma flatPairs_appendTo (d : LabelPartition) (k : ℕ) (v : Vec) :
    (flatPairs (appendTo d k v)).Perm ((k, v) :: flatPairs d) := by
  induction d with
  | nil => simp [appendTo, flatPairs]
  | cons kl rest ih =>
    obtain ⟨k1, l1⟩ := kl
    by_cases hk : k1 = k
    · have hstep : appendTo ((k1, l1) :: rest) k v = (k1, l1 ++ [v]) :: rest := by
        rw [appendTo, if_pos hk]
      rw [hstep, flatPairs_cons, flatPairs_cons]
      subst hk
      simp only [List.map_append, List.map_cons, List.map_nil, List.append_assoc,
        List.singleton_append]
      exact List.perm_middle
    · have hstep : appendTo ((k1, l1) :: rest) k v = (k1, l1) :: appendTo rest k v := by
        rw [appendTo, if_neg hk]
      rw [hstep, flatPairs_cons, flatPairs_cons]
      exact (List.Perm.append_left _ ih).trans List.perm_middle

lemma flatPairs_sampleFold (dic : LabelPartition) (idx : List ℕ)
    (hin : ∀ i ∈ idx, i < lenDictValues dic) (d0 : LabelPartition) :
    (flatPairs (idx.foldl (fun d i =>
        match lookupFlat dic i with
        | some kv => appendTo d kv.1 kv.2
        | none => d) d0)).Perm
      ((idx.map (fun i => (flatPairs dic).getD i (0, []))) ++ flatPairs d0) := by
  induction idx generalizing d0 with
  | nil => simp
  | cons i rest ih =>
    have hi : i < lenDictValues dic := hin i (List.mem_cons_self _ _)
    rw [List.foldl_cons]
    have hstep : (match lookupFlat dic i with
        | some kv => appendTo d0 kv.1 kv.2
        | none => d0)
        = appendTo d0 ((flatPairs dic).getD i (0, [])).1
            ((flatPairs dic).getD i (0, [])).2 := by
      rw [lookupFlat_eq dic i hi]
    rw [hstep]
    have h1 := ih (fun j hj => hin j (List.mem_cons_of_mem _ hj))
      (appendTo d0 ((flatPairs dic).getD i (0, [])).1 ((flatPairs dic).getD i (0, [])).2)
    have h2 : (flatPairs (appendTo d0 ((flatPairs dic).getD i (0, [])).1
        ((flatPairs dic).getD i (0, [])).2)).Perm
        (((flatPairs dic).getD i (0, [])) :: flatPairs d0) := flatPairs_appendTo d0 _ _
    have h3 := (List.Perm.append_left
      (rest.map (fun j => (flatPairs dic).getD j (0, []))) h2)
    have h4 := h1.trans h3
    rw [List.map_cons, List.cons_append]
    exact h4.trans List.perm_middle

/-- C9: when the index oracle delivers what `rd.sample(range(n), sample_size)`
guarantees — `sample_size` distinct positions below the dataset size — and
`sample_size ≤ n`, `sampleDict` returns a partition whose flattened
(label, vector) pairs are exactly the pairs of the chosen flat positions of
the input (so it has exactly `sample_size` vectors, each keeping its label,
no source position used twice); when `sample_size > n` the operation fails
(`rd.sample` raises `ValueError`, modelled by `none`). -/
theorem sampleDict_spec (dic : LabelPartition) (sample_size : ℕ) (idx : List ℕ)
    (hnd : idx.Nodup) (hlen : idx.length = sample_size)
    (hin : ∀ i ∈ idx, i < lenDictValues dic)
    (hs : sample_size ≤ lenDictValues dic) :
    (∃ d, sampleDict dic sample_size idx = some d ∧
      lenDictValues d = sample_size ∧
      (flatPairs d).Perm (idx.map (fun i => (flatPairs dic).getD i (0, [])))) ∧
    (∀ sample2 idx2, lenDictValues dic < sample2 →
      sampleDict dic sample2 idx2 = none) := by
  constructor
  · have hguard : ¬ lenDictValues dic < sample_size := by omega
    have hsome : sampleDict dic sample_size idx
        = some (idx.foldl (fun d i =>
            match lookupFlat dic i with
            | some kv => appendTo d kv.1 kv.2
            | none => d) []) := by
      rw [sampleDict, if_neg hguard]
    have hperm := flatPairs_sampleFold dic idx hin []
    have hnil : flatPairs ([] : LabelPartition) = [] := rfl
    rw [hnil, List.append_nil] at hperm
    refine ⟨_, hsome, ?_, hperm⟩
    rw [lenDictValues_eq_flatPairs_length, hperm.length_eq, List.length_map, hlen]
  · intro sample2 idx2 h2
    rw [sampleDict, if_pos h2]

/-- Witness for C9 at `{0: [[1],[3]], 1: [[2]]}` with index sample `[2, 0]`
of size 2. -/
theorem sampleDict_spec_witness :
    ([2, 0] : List ℕ).Nodup ∧
    ([2, 0] : List ℕ).length = 2 ∧
    (∀ i ∈ ([2, 0] : List ℕ),
      i < lenDictValues ([(0, [[1], [3]]), (1, [[2]])] : LabelPartition)) ∧
    2 ≤ lenDictValues ([(0, [[1], [3]]), (1, [[2]])] : LabelPartition) ∧
    ((∃ d, sampleDict ([(0, [[1], [3]]), (1, [[2]])] : LabelPartition) 2 [2, 0]
        = some d ∧
      lenDictValues d = 2 ∧
      (flatPairs d).Perm (([2, 0] : List ℕ).map (fun i =>
        (flatPairs ([(0, [[1], [3]]), (1, [[2]])] : LabelPartition)).getD i (0, [])))) ∧
    (∀ sample2 idx2,
      lenDictValues ([(0, [[1], [3]]), (1, [[2]])] : LabelPartition) < sample2 →
      sampleDict ([(0, [[1], [3]]), (1, [[2]])] : LabelPartition) sample2 idx2 = none)) :=
  ⟨by decide, by decide, by decide, by decide,
    sampleDict_spec _ _ _ (by decide) (by decide) (by decide) (by decide)⟩

/-! ## C1: `bestCut` -/

/-- The skipping fold of `bestCut` equals the first-strict-maximum of the
non-degenerate candidates, starting from the incumbent, with the stored gain
always the gain of the stored candidate. -/
lemma foldl_best_eq {C : Type} (f : C → ℚ) (P : C → Prop) [DecidablePred P]
    (l : List C) (a : C) :
    l.foldl (fun best c => if P c then best
        else if best.1 < f c then (f c, c) else best) (f a, a)
      = (f (firstStrictMax f a (l.filter (fun c => !decide (P c)))),
         firstStrictMax f a (l.filter (fun c => !decide (P c)))) := by
  induction l generalizing a with
  | nil => simp [firstStrictMax]
  | cons c rest ih =>
    rw [List.foldl_cons, List.filter_cons]
    by_cases hP : P c
    · rw [if_pos hP]
      have hb : (!decide (P c)) = false := by simp [hP]
      rw [hb]
      simp only [Bool.false_eq_true, if_false]
      exact ih a
    · rw [if_neg hP]
      have hb : (!decide (P c)) = true := by simp [hP]
      rw [hb]
      simp only [if_true]
      have hfsm : firstStrictMax f a (c :: rest.filter (fun c => !decide (P c)))
          = firstStrictMax f (if f a < f c then c else a)
              (rest.filter (fun c => !decide (P c))) := rfl
      rw [hfsm]
      by_cases hlt : f a < f c
      · rw [if_pos hlt, if_pos hlt]
        exact ih c
      · rw [if_neg hlt, if_neg hlt]
        exact ih a

lemma cutCandidates_succ (data : LabelPartition) (k : ℕ) (features : List ℕ)
    (oracle : ℕ → ℕ × ℕ) :
    cutCandidates data (k + 1) features oracle
      = generateCut data features (oracle 0).1 (oracle 0).2
        :: (List.range k).map (fun i =>
            generateCut data features (oracle (i + 1)).1 (oracle (i + 1)).2) := by
  rw [cutCandidates, List.range_succ_eq_map, List.map_cons, List.map_map]
  rfl

/-- C1: `bestCut` draws `nb_cut` candidate cuts (the first before the loop);
every later candidate with an empty side is discarded; the result is the
first-found strict maximum of information gain among the first candidate and
the kept later ones (`firstStrictMax` replaces the incumbent only on a strict
`>` comparison); and when every later candidate is degenerate the first
candidate's cut and gain are returned, whether or not that first candidate
itself has an empty side. -/
theorem bestCut_spec (data : LabelPartition) (nb_cut : ℕ) (features : List ℕ)
    (oracle : ℕ → ℕ × ℕ) (hn : 1 ≤ nb_cut) (hd : 0 < lenDictValues data) :
    (cutCandidates data nb_cut features oracle).length = nb_cut ∧
    cutCandidates data nb_cut features oracle
      = generateCut data features (oracle 0).1 (oracle 0).2
        :: (cutCandidates data nb_cut features oracle).drop 1 ∧
    bestCut data nb_cut features oracle
      = (infoGain data
          (firstStrictMax (fun c => infoGain data c.1 c.2.1)
            (generateCut data features (oracle 0).1 (oracle 0).2)
            (((cutCandidates data nb_cut features oracle).drop 1).filter
              (fun c => !degenerateCut c))).1
          (firstStrictMax (fun c => infoGain data c.1 c.2.1)
            (generateCut data features (oracle 0).1 (oracle 0).2)
            (((cutCandidates data nb_cut features oracle).drop 1).filter
              (fun c => !degenerateCut c))).2.1,
         firstStrictMax (fun c => infoGain data c.1 c.2.1)
            (generateCut data features (oracle 0).1 (oracle 0).2)
            (((cutCandidates data nb_cut features oracle).drop 1).filter
              (fun c => !degenerateCut c))) ∧
    ((∀ c ∈ (cutCandidates data nb_cut features oracle).drop 1,
        degenerateCut c = true) →
      bestCut data nb_cut features oracle
        = (infoGain data (generateCut data features (oracle 0).1 (oracle 0).2).1
            (generateCut data features (oracle 0).1 (oracle 0).2).2.1,
           generateCut data features (oracle 0).1 (oracle 0).2)) := by
  obtain ⟨k, rfl⟩ : ∃ k, nb_cut = k + 1 := by
    cases nb_cut with
    | zero => omega
    | succ k => exact ⟨k, rfl⟩
  have hcand := cutCandidates_succ data k features oracle
  have hlen : (cutCandidates data (k + 1) features oracle).length = k + 1 := by
    rw [cutCandidates, List.length_map, List.length_range]
  have hdrop : (cutCandidates data (k + 1) features oracle).drop 1
      = (List.range k).map (fun i =>
          generateCut data features (oracle (i + 1)).1 (oracle (i + 1)).2) := by
    rw [hcand]
    rfl
  have hpred : (fun c : LabelPartition × LabelPartition × ℕ × ℚ =>
      !decide (c.1.length = 0 ∨ c.2.1.length = 0)) = fun c => !degenerateCut c := by
    funext c
    simp [degenerateCut]
  have hbody : bestCut data (k + 1) features oracle
      = (List.range k).foldl
          (fun best i =>
            let c := generateCut data features (oracle (i + 1)).1 (oracle (i + 1)).2
            if c.1.length = 0 ∨ c.2.1.length = 0 then best
            else if best.1 < infoGain data c.1 c.2.1
              then (infoGain data c.1 c.2.1, c) else best)
          (infoGain data (generateCut data features (oracle 0).1 (oracle 0).2).1
            (generateCut data features (oracle 0).1 (oracle 0).2).2.1,
           generateCut data features (oracle 0).1 (oracle 0).2) := rfl
  have hmap : (List.range k).foldl
      (fun best i =>
        let c := generateCut data features (oracle (i + 1)).1 (oracle (i + 1)).2
        if c.1.length = 0 ∨ c.2.1.length = 0 then best
        else if best.1 < infoGain data c.1 c.2.1
          then (infoGain data c.1 c.2.1, c) else best)
      (infoGain data (generateCut data features (oracle 0).1 (oracle 0).2).1
        (generateCut data features (oracle 0).1 (oracle 0).2).2.1,
       generateCut data features (oracle 0).1 (oracle 0).2)
      = ((List.range k).map (fun i =>
          generateCut data features (oracle (i + 1)).1 (oracle (i + 1)).2)).foldl
          (fun best c =>
            if c.1.length = 0 ∨ c.2.1.length = 0 then best
            else if best.1 < infoGain data c.1 c.2.1
              then (infoGain data c.1 c.2.1, c) else best)
          (infoGain data (generateCut data features (oracle 0).1 (oracle 0).2).1
            (generateCut data features (oracle 0).1 (oracle 0).2).2.1,
           generateCut data features (oracle 0).1 (oracle 0).2) := by
    rw [List.foldl_map]
  have hfold := foldl_best_eq (fun c : LabelPartition × LabelPartition × ℕ × ℚ =>
      infoGain data c.1 c.2.1)
    (fun c => c.1.length = 0 ∨ c.2.1.length = 0)
    ((List.range k).map (fun i =>
      generateCut data features (oracle (i + 1)).1 (oracle (i + 1)).2))
    (generateCut data features (oracle 0).1 (oracle 0).2)
  rw [hpred] at hfold
  have hmain : bestCut data (k + 1) features oracle
      = (infoGain data
          (firstStrictMax (fun c => infoGain data c.1 c.2.1)
            (generateCut data features (oracle 0).1 (oracle 0).2)
            (((cutCandidates data (k + 1) features oracle).drop 1).filter
              (fun c => !degenerateCut c))).1
          (firstStrictMax (fun c => infoGain data c.1 c.2.1)
            (generateCut data features (oracle 0).1 (oracle 0).2)
            (((cutCandidates data (k + 1) features oracle).drop 1).filter
              (fun c => !degenerateCut c))).2.1,
         firstStrictMax (fun c => infoGain data c.1 c.2.1)
            (generateCut data features (oracle 0).1 (oracle 0).2)
            (((cutCandidates data (k + 1) features oracle).drop 1).filter
              (fun c => !degenerateCut c))) := by
    rw [hbody, hmap, hdrop, hfold]
  refine ⟨hlen, by rw [hcand]; rfl, hmain, ?_⟩
  intro hall
  have hfilnil : ((cutCandidates data (k + 1) features oracle).drop 1).filter
      (fun c => !degenerateCut c) = [] := by
    apply List.filter_eq_nil_iff.mpr
    intro c hc
    simp [hall c hc]
  rw [hmain, hfilnil]
  rfl

/-- Witness for C1: two candidates on `{0: [[1],[3]], 1: [[2]]}` with feature
list `[0]`, candidate `i` sampling point index `i`. -/
theorem bestCut_spec_witness :
    (1 ≤ 2) ∧
    (0 < lenDictValues ([(0, [[1], [3]]), (1, [[2]])] : LabelPartition)) ∧
    ((cutCandidates [(0, [[1], [3]]), (1, [[2]])] 2 [0] (fun i => (0, i))).length = 2 ∧
     cutCandidates [(0, [[1], [3]]), (1, [[2]])] 2 [0] (fun i => (0, i))
      = generateCut [(0, [[1], [3]]), (1, [[2]])] [0]
          ((fun i : ℕ => ((0 : ℕ), i)) 0).1 ((fun i : ℕ => ((0 : ℕ), i)) 0).2
        :: (cutCandidates [(0, [[1], [3]]), (1, [[2]])] 2 [0] (fun i => (0, i))).drop 1 ∧
     bestCut [(0, [[1], [3]]), (1, [[2]])] 2 [0] (fun i => (0, i))
      = (infoGain [(0, [[1], [3]]), (1, [[2]])]
          (firstStrictMax (fun c => infoGain [(0, [[1], [3]]), (1, [[2]])] c.1 c.2.1)
            (generateCut [(0, [[1], [3]]), (1, [[2]])] [0]
              ((fun i : ℕ => ((0 : ℕ), i)) 0).1 ((fun i : ℕ => ((0 : ℕ), i)) 0).2)
            (((cutCandidates [(0, [[1], [3]]), (1, [[2]])] 2 [0]
                (fun i => (0, i))).drop 1).filter (fun c => !degenerateCut c))).1
          (firstStrictMax (fun c => infoGain [(0, [[1], [3]]), (1, [[2]])] c.1 c.2.1)
            (generateCut [(0, [[1], [3]]), (1, [[2]])] [0]
              ((fun i : ℕ => ((0 : ℕ), i)) 0).1 ((fun i : ℕ => ((0 : ℕ), i)) 0).2)
            (((cutCandidates [(0, [[1], [3]]), (1, [[2]])] 2 [0]
                (fun i => (0, i))).drop 1).filter (fun c => !degenerateCut c))).2.1,
         firstStrictMax (fun c => infoGain [(0, [[1], [3]]), (1, [[2]])] c.1 c.2.1)
            (generateCut [(0, [[1], [3]]), (1, [[2]])] [0]
              ((fun i : ℕ => ((0 : ℕ), i)) 0).1 ((fun i : ℕ => ((0 : ℕ), i)) 0).2)
            (((cutCandidates [(0, [[1], [3]]), (1, [[2]])] 2 [0]
                (fun i => (0, i))).drop 1).filter (fun c => !degenerateCut c))) ∧
     ((∀ c ∈ (cutCandidates [(0, [[1], [3]]), (1, [[2]])] 2 [0]
          (fun i => (0, i))).drop 1, degenerateCut c = true) →
      bestCut [(0, [[1], [3]]), (1, [[2]])] 2 [0] (fun i => (0, i))
        = (infoGain [(0, [[1], [3]]), (1, [[2]])]
            (generateCut [(0, [[1], [3]]), (1, [[2]])] [0]
              ((fun i : ℕ => ((0 : ℕ), i)) 0).1 ((fun i : ℕ => ((0 : ℕ), i)) 0).2).1
            (generateCut [(0, [[1], [3]]), (1, [[2]])] [0]
              ((fun i : ℕ => ((0 : ℕ), i)) 0).1 ((fun i : ℕ => ((0 : ℕ), i)) 0).2).2.1,
           generateCut [(0, [[1], [3]]), (1, [[2]])] [0]
              ((fun i : ℕ => ((0 : ℕ), i)) 0).1 ((fun i : ℕ => ((0 : ℕ), i)) 0).2))) :=
  ⟨by omega, by decide,
    bestCut_spec [(0, [[1], [3]]), (1, [[2]])] 2 [0] (fun i => (0, i))
      (by omega) (by decide)⟩

/-! ## Tree construction: unfolding lemmas -/

lemma decisionTree_stop (node : Node) (nb : ℕ) (features : List ℕ)
    (oracle : List Bool → ℕ → ℕ × ℕ) (d : ℕ)
    (h : gini node.data = 0 ∨ (bestCut node.data nb features (oracle [])).1 = 0 ∨
      node.depth = d) :
    decisionTree node nb features oracle d = node := by
  rw [decisionTree.eq_def]
  rw [if_pos h]

lemma decisionTree_go (node : Node) (nb : ℕ) (features : List ℕ)
    (oracle : List Bool → ℕ → ℕ × ℕ) (d : ℕ)
    (h : ¬(gini node.data = 0 ∨ (bestCut node.data nb features (oracle [])).1 = 0 ∨
      node.depth = d + 1)) :
    decisionTree node nb features oracle (d + 1)
      = Node.mk node.data
          (some ((bestCut node.data nb features (oracle [])).2.2.2.1,
                 (bestCut node.data nb features (oracle [])).2.2.2.2))
          (some (decisionTree (Node.mk (bestCut node.data nb features (oracle [])).2.1
            none none none) nb features (fun p => oracle (false :: p)) d))
          (some (decisionTree (Node.mk (bestCut node.data nb features (oracle [])).2.2.1
            none none none) nb features (fun p => oracle (true :: p)) d)) := by
  conv_lhs => rw [decisionTree.eq_def]
  rw [if_neg h]

/-- Case analysis on building a tree from a fresh (childless, question-free)
node: either a stopping rule fired and the node is returned unchanged, or the
depth budget was positive, the best cut's gain was nonzero, and the node is
split with the two children built recursively from the best cut's sides. -/
lemma decisionTree_cases (data : LabelPartition) (nb : ℕ) (features : List ℕ)
    (oracle : List Bool → ℕ → ℕ × ℕ) (d : ℕ) :
    decisionTree (Node.mk data none none none) nb features oracle d
      = Node.mk data none none none ∨
    (∃ d2, d = d2 + 1 ∧
      (bestCut data nb features (oracle [])).1 ≠ 0 ∧
      decisionTree (Node.mk data none none none) nb features oracle d
        = Node.mk data
            (some ((bestCut data nb features (oracle [])).2.2.2.1,
                   (bestCut data nb features (oracle [])).2.2.2.2))
            (some (decisionTree
              (Node.mk (bestCut data nb features (oracle [])).2.1 none none none)
              nb features (fun p => oracle (false :: p)) d2))
            (some (decisionTree
              (Node.mk (bestCut data nb features (oracle [])).2.2.1 none none none)
              nb features (fun p => oracle (true :: p)) d2))) := by
  by_cases hstop : gini (Node.mk data none none none).data = 0 ∨
      (bestCut (Node.mk data none none none).data nb features (oracle [])).1 = 0 ∨
      (Node.mk data none none none).depth = d
  · exact Or.inl (decisionTree_stop _ _ _ _ _ hstop)
  · push_neg at hstop
    obtain ⟨h1, h2, h3⟩ := hstop
    have hdep : (Node.mk data none none none).depth = 0 := rfl
    rw [hdep] at h3
    obtain ⟨d2, rfl⟩ : ∃ d2, d = d2 + 1 := by
      cases d with
      | zero => exact absurd rfl h3
      | succ d2 => exact ⟨d2, rfl⟩
    refine Or.inr ⟨d2, rfl, h2, ?_⟩
    exact decisionTree_go _ _ _ _ _ (by
      push_neg
      exact ⟨h1, h2, by rw [hdep]; omega⟩)

lemma Node.depth_leaf (d : LabelPartition) (q : Option (ℕ × ℚ)) :
    Node.depth (Node.mk d q none none) = 0 := rfl

lemma Node.depth_internal (d : LabelPartition) (q : Option (ℕ × ℚ)) (a b : Node) :
    Node.depth (Node.mk d q (some a) (some b)) = max a.depth b.depth + 1 := rfl

lemma Node.nodes_leaf (d : LabelPartition) (q : Option (ℕ × ℚ)) :
    Node.nodes (Node.mk d q none none) = [Node.mk d q none none] := rfl

lemma Node.nodes_internal (d : LabelPartition) (q : Option (ℕ × ℚ)) (a b : Node) :
    Node.nodes (Node.mk d q (some a) (some b))
      = Node.mk d q (some a) (some b) :: a.nodes ++ b.nodes := rfl

/-! ## C5: depth bound -/

lemma decisionTree_depth_le (nb : ℕ) (features : List ℕ) :
    ∀ (d : ℕ) (data : LabelPartition) (oracle : List Bool → ℕ → ℕ × ℕ),
      (decisionTree (Node.mk data none none none) nb features oracle d).depth ≤ d := by
  intro d
  induction d with
  | zero =>
    intro data oracle
    rcases decisionTree_cases data nb features oracle 0 with h | ⟨d2, hd2, -, -⟩
    · rw [h, Node.depth_leaf]
    · omega
  | succ d2 ih =>
    intro data oracle
    rcases decisionTree_cases data nb features oracle (d2 + 1) with h | ⟨d3, hd3, -, heq⟩
    · rw [h, Node.depth_leaf]
      omega
    · have hd : d3 = d2 := by omega
      subst hd
      rw [heq, Node.depth_internal]
      have h1 := ih (bestCut data nb features (oracle [])).2.1 (fun p => oracle (false :: p))
      have h2 := ih (bestCut data nb features (oracle [])).2.2.1 (fun p => oracle (true :: p))
      omega

/-- C5: a tree built by `decisionTree` from a fresh root holding a non-empty
partition has depth at most `max_depth`; with `max_depth = 0` the root node is
returned unchanged — a leaf with no question and no children. -/
theorem decisionTree_depth_spec (data : LabelPartition) (nb : ℕ) (features : List ℕ)
    (oracle : List Bool → ℕ → ℕ × ℕ) (d : ℕ) (h : 0 < lenDictValues data) :
    (decisionTree (Node.mk data none none none) nb features oracle d).depth ≤ d ∧
    (d = 0 → decisionTree (Node.mk data none none none) nb features oracle d
      = Node.mk data none none none) := by
  refine ⟨decisionTree_depth_le nb features d data oracle, ?_⟩
  rintro rfl
  exact decisionTree_stop _ _ _ _ _ (Or.inr (Or.inr rfl))

/-- Witness for C5: one-candidate build at depth budget 1. -/
theorem decisionTree_depth_spec_witness :
    0 < lenDictValues ([(0, [[1], [3]]), (1, [[2]])] : LabelPartition) ∧
    ((decisionTree (Node.mk [(0, [[1], [3]]), (1, [[2]])] none none none) 1 [0]
        (fun _ i => (0, i)) 1).depth ≤ 1 ∧
    ((1 : ℕ) = 0 → decisionTree (Node.mk [(0, [[1], [3]]), (1, [[2]])] none none none)
        1 [0] (fun _ i => (0, i)) 1
      = Node.mk [(0, [[1], [3]]), (1, [[2]])] none none none)) :=
  ⟨by decide, decisionTree_depth_spec _ _ _ _ _ (by decide)⟩

/-! ## C6: question iff two children -/

/-- C6: in every node of a tree built by `decisionTree` from a fresh root, the
node has a `SplitQuestion` exactly when it has both children, it never has
exactly one child, and a node without a question has no children at all. -/
theorem decisionTree_node_shape (data : LabelPartition) (nb : ℕ) (features : List ℕ)
    (oracle : List Bool → ℕ → ℕ × ℕ) (d : ℕ) :
    ∀ n ∈ (decisionTree (Node.mk data none none none) nb features oracle d).nodes,
      (n.question.isSome ↔ (n.left_son.isSome ∧ n.right_son.isSome)) ∧
      (n.left_son.isSome ↔ n.right_son.isSome) ∧
      (n.question = none → n.left_son = none ∧ n.right_son = none) := by
  induction d generalizing data oracle with
  | zero =>
    rcases decisionTree_cases data nb features oracle 0 with h | ⟨d2, hd2, -, -⟩
    · rw [h, Node.nodes_leaf]
      intro n hn
      rw [List.mem_singleton] at hn
      subst hn
      simp [Node.question, Node.left_son, Node.right_son]
    · omega
  | succ d2 ih =>
    rcases decisionTree_cases data nb features oracle (d2 + 1) with h | ⟨d3, hd3, -, heq⟩
    · rw [h, Node.nodes_leaf]
      intro n hn
      rw [List.mem_singleton] at hn
      subst hn
      simp [Node.question, Node.left_son, Node.right_son]
    · have hd : d3 = d2 := by omega
      subst hd
      rw [heq, Node.nodes_internal]
      intro n hn
      rcases List.mem_cons.mp hn with rfl | hn2
      · simp [Node.question, Node.left_son, Node.right_son]
      · rcases List.mem_append.mp hn2 with hleft | hright
        · exact ih _ _ n hleft
        · exact ih _ _ n hright

/-! ## C10: non-emptiness of every node of a built tree -/

lemma dropEmpties_eq_filterMap (P : LabelPartition) :
    dropEmpties P = P.filterMap (fun e => if e.2.isEmpty then none else some e) := by
  induction P with
  | nil => rfl
  | cons kl rest ih =>
    by_cases he : kl.2.isEmpty
    · have h1 : dropEmpties (kl :: rest) = dropEmpties rest := by
        simp [dropEmpties, List.filter_cons, he]
      have h2 : (kl :: rest).filterMap (fun e => if e.2.isEmpty then none else some e)
          = rest.filterMap (fun e => if e.2.isEmpty then none else some e) :=
        List.filterMap_cons_none (by simp [he])
      rw [h1, h2, ih]
    · have h1 : dropEmpties (kl :: rest) = kl :: dropEmpties rest := by
        simp [dropEmpties, List.filter_cons, he]
      have h2 : (kl :: rest).filterMap (fun e => if e.2.isEmpty then none else some e)
          = kl :: rest.filterMap (fun e => if e.2.isEmpty then none else some e) :=
        List.filterMap_cons_some (by simp [he])
      rw [h1, h2, ih]

/-- If one side of the per-label split received nothing, the other side is the
input with its empty labels dropped. -/
lemma filterSplit_empty_other (data : LabelPartition) (q : Vec → Bool)
    (h : data.filterMap (fun e =>
        if (e.2.filter q).isEmpty then none else some (e.1, e.2.filter q)) = []) :
    data.filterMap (fun e =>
        if (e.2.filter (fun v => !q v)).isEmpty then none
        else some (e.1, e.2.filter (fun v => !q v)))
      = dropEmpties data := by
  rw [dropEmpties_eq_filterMap]
  have hall := List.filterMap_eq_nil_iff.mp h
  apply List.filterMap_congr
  intro e he
  have hnone := hall e he
  have hfe : (e.2.filter q).isEmpty := by
    by_contra hc
    rw [if_neg hc] at hnone
    exact Option.some_ne_none _ hnone
  have hqfalse : ∀ v ∈ e.2, ¬ q v = true := by
    apply List.filter_eq_nil_iff.mp
    simpa [List.isEmpty_iff] using hfe
  have hself : e.2.filter (fun v => !q v) = e.2 := by
    apply List.filter_eq_self.mpr
    intro v hv
    simp [hqfalse v hv]
  rw [hself]

lemma generateCut_entries_nonempty (data : LabelPartition) (features : List ℕ)
    (fI pI : ℕ) :
    (∀ kl ∈ (generateCut data features fI pI).1, kl.2 ≠ []) ∧
    (∀ kl ∈ (generateCut data features fI pI).2.1, kl.2 ≠ []) := by
  by_cases hne : data.length ≠ 0
  · rw [generateCut_eq data features fI pI hne]
    constructor
    · intro kl hkl
      obtain ⟨a, -, ha⟩ := List.mem_filterMap.mp hkl
      by_cases hc : (a.2.filter (fun v => decide (v.getD (features.getD fI 0) 0
          < ((flattenPoints data).getD pI []).getD (features.getD fI 0) 0))).isEmpty
      · rw [if_pos hc] at ha
        exact absurd ha (Option.noConfusion)
      · rw [if_neg hc] at ha
        obtain rfl := Option.some_injective _ ha
        simpa [List.isEmpty_iff] using hc
    · intro kl hkl
      obtain ⟨a, -, ha⟩ := List.mem_filterMap.mp hkl
      by_cases hc : (a.2.filter (fun v => !decide (v.getD (features.getD fI 0) 0
          < ((flattenPoints data).getD pI []).getD (features.getD fI 0) 0))).isEmpty
      · rw [if_pos hc] at ha
        exact absurd ha (Option.noConfusion)
      · rw [if_neg hc] at ha
        obtain rfl := Option.some_injective _ ha
        simpa [List.isEmpty_iff] using hc
  · push_neg at hne
    have hdata : data = [] := List.length_eq_zero.mp hne
    subst hdata
    constructor <;> intro kl hkl <;> simp [generateCut] at hkl

lemma generateCut_left_empty (data : LabelPartition) (features : List ℕ) (fI pI : ℕ)
    (hne : data.length ≠ 0) (h : (generateCut data features fI pI).1 = []) :
    (generateCut data features fI pI).2.1 = dropEmpties data := by
  rw [generateCut_eq data features fI pI hne] at h ⊢
  exact filterSplit_empty_other data _ h

lemma generateCut_right_empty (data : LabelPartition) (features : List ℕ) (fI pI : ℕ)
    (hne : data.length ≠ 0) (h : (generateCut data features fI pI).2.1 = []) :
    (generateCut data features fI pI).1 = dropEmpties data := by
  rw [generateCut_eq data features fI pI hne] at h ⊢
  have hq : (fun v : Vec => decide (v.getD (features.getD fI 0) 0
      < ((flattenPoints data).getD pI []).getD (features.getD fI 0) 0))
      = fun v => !!decide (v.getD (features.getD fI 0) 0
      < ((flattenPoints data).getD pI []).getD (features.getD fI 0) 0) := by
    funext v
    simp
  rw [show (fun e : ℕ × List Vec =>
      if (e.2.filter (fun v => decide (v.getD (features.getD fI 0) 0
          < ((flattenPoints data).getD pI []).getD (features.getD fI 0) 0))).isEmpty
      then none
      else some (e.1, e.2.filter (fun v => decide (v.getD (features.getD fI 0) 0
          < ((flattenPoints data).getD pI []).getD (features.getD fI 0) 0))))
      = fun e : ℕ × List Vec =>
      if (e.2.filter (fun v => !!decide (v.getD (features.getD fI 0) 0
          < ((flattenPoints data).getD pI []).getD (features.getD fI 0) 0))).isEmpty
      then none
      else some (e.1, e.2.filter (fun v => !!decide (v.getD (features.getD fI 0) 0
          < ((flattenPoints data).getD pI []).getD (features.getD fI 0) 0)))
    from by rw [← hq]]
  exact filterSplit_empty_other data _ h

lemma infoGain_left_empty (data c2 : LabelPartition) (h : c2 = dropEmpties data) :
    infoGain data [] c2 = 0 := by
  have hIG : infoGain data [] c2
      = gini data - (((lenDictValues ([] : LabelPartition) : ℕ) : ℚ)
          / (lenDictValues data : ℚ) * gini []
        + (1 - ((lenDictValues ([] : LabelPartition) : ℕ) : ℚ)
          / (lenDictValues data : ℚ)) * gini c2) := rfl
  have h0 : ((lenDictValues ([] : LabelPartition) : ℕ) : ℚ) = 0 := by
    simp [lenDictValues]
  rw [hIG, h0, zero_div, h, gini_dropEmpties]
  ring

lemma infoGain_right_empty (data c1 : LabelPartition) (hT : 0 < lenDictValues data)
    (h : c1 = dropEmpties data) : infoGain data c1 [] = 0 := by
  have hIG : infoGain data c1 []
      = gini data - (((lenDictValues c1 : ℕ) : ℚ) / (lenDictValues data : ℚ) * gini c1
        + (1 - ((lenDictValues c1 : ℕ) : ℚ) / (lenDictValues data : ℚ)) * gini []) := rfl
  have h1 : ((lenDictValues c1 : ℕ) : ℚ) / (lenDictValues data : ℚ) = 1 := by
    rw [h, lenDictValues_dropEmpties]
    apply div_self
    exact_mod_cast Nat.pos_iff_ne_zero.mp hT
  rw [hIG, h1, h, gini_dropEmpties]
  ring

lemma foldl_preserve {α β : Type} (P : β → Prop) (f : β → α → β) (l : List α)
    (b0 : β) (h0 : P b0) (hstep : ∀ b a, P b → P (f b a)) : P (l.foldl f b0) := by
  induction l generalizing b0 with
  | nil => exact h0
  | cons a rest ih => exact ih _ (hstep _ _ h0)

/-- The incumbent of `bestCut`'s fold: if its cut has an empty side its stored
gain is 0, and every label present on either side holds at least one vector. -/
lemma bestCut_inv (data : LabelPartition) (nb : ℕ) (features : List ℕ)
    (oracle : ℕ → ℕ × ℕ) (hT : 0 < lenDictValues data) :
    ((bestCut data nb features oracle).2.1 = []
        ∨ (bestCut data nb features oracle).2.2.1 = []
      → (bestCut data nb features oracle).1 = 0) ∧
    (∀ kl ∈ (bestCut data nb features oracle).2.1, kl.2 ≠ []) ∧
    (∀ kl ∈ (bestCut data nb features oracle).2.2.1, kl.2 ≠ []) := by
  have hne : data.length ≠ 0 := by
    intro h0
    have : data = [] := List.length_eq_zero.mp h0
    subst this
    simp [lenDictValues] at hT
  have hgen : ∀ fI pI,
      (((generateCut data features fI pI).1 = []
          ∨ (generateCut data features fI pI).2.1 = [])
        → infoGain data (generateCut data features fI pI).1
            (generateCut data features fI pI).2.1 = 0) := by
    intro fI pI hdeg
    rcases hdeg with h1 | h2
    · rw [h1]
      exact infoGain_left_empty data _ (generateCut_left_empty data features fI pI hne h1)
    · rw [h2]
      exact infoGain_right_empty data _ hT (generateCut_right_empty data features fI pI hne h2)
  show (fun st : ℚ × LabelPartition × LabelPartition × ℕ × ℚ =>
      (st.2.1 = [] ∨ st.2.2.1 = [] → st.1 = 0) ∧
      (∀ kl ∈ st.2.1, kl.2 ≠ []) ∧ (∀ kl ∈ st.2.2.1, kl.2 ≠ []))
    (bestCut data nb features oracle)
  rw [bestCut]
  apply foldl_preserve (fun st : ℚ × LabelPartition × LabelPartition × ℕ × ℚ =>
      (st.2.1 = [] ∨ st.2.2.1 = [] → st.1 = 0) ∧
      (∀ kl ∈ st.2.1, kl.2 ≠ []) ∧ (∀ kl ∈ st.2.2.1, kl.2 ≠ []))
  · refine ⟨?_, (generateCut_entries_nonempty data features _ _).1,
      (generateCut_entries_nonempty data features _ _).2⟩
    intro hdeg
    exact hgen _ _ hdeg
  · intro b i hb
    show (fun st : ℚ × LabelPartition × LabelPartition × ℕ × ℚ =>
        (st.2.1 = [] ∨ st.2.2.1 = [] → st.1 = 0) ∧
        (∀ kl ∈ st.2.1, kl.2 ≠ []) ∧ (∀ kl ∈ st.2.2.1, kl.2 ≠ []))
      (if (generateCut data features (oracle (i + 1)).1 (oracle (i + 1)).2).1.length = 0
          ∨ (generateCut data features (oracle (i + 1)).1 (oracle (i + 1)).2).2.1.length = 0
        then b
        else if b.1 < infoGain data
            (generateCut data features (oracle (i + 1)).1 (oracle (i + 1)).2).1
            (generateCut data features (oracle (i + 1)).1 (oracle (i + 1)).2).2.1
          then (infoGain data
              (generateCut data features (oracle (i + 1)).1 (oracle (i + 1)).2).1
              (generateCut data features (oracle (i + 1)).1 (oracle (i + 1)).2).2.1,
            generateCut data features (oracle (i + 1)).1 (oracle (i + 1)).2)
          else b)
    by_cases hdeg : (generateCut data features (oracle (i + 1)).1 (oracle (i + 1)).2).1.length = 0
        ∨ (generateCut data features (oracle (i + 1)).1 (oracle (i + 1)).2).2.1.length = 0
    · rw [if_pos hdeg]
      exact hb
    · rw [if_neg hdeg]
      by_cases hlt : b.1 < infoGain data
          (generateCut data features (oracle (i + 1)).1 (oracle (i + 1)).2).1
          (generateCut data features (oracle (i + 1)).1 (oracle (i + 1)).2).2.1
      · rw [if_pos hlt]
        push_neg at hdeg
        refine ⟨?_, (generateCut_entries_nonempty data features _ _).1,
          (generateCut_entries_nonempty data features _ _).2⟩
        intro hdeg2
        exfalso
        rcases hdeg2 with h1 | h2
        · exact hdeg.1 (by rw [h1]; rfl)
        · exact hdeg.2 (by rw [h2]; rfl)
      · rw [if_neg hlt]
        exact hb

lemma lenDictValues_pos_of_entries (c : LabelPartition) (hne : c ≠ [])
    (h : ∀ kl ∈ c, kl.2 ≠ []) : 0 < lenDictValues c := by
  obtain ⟨kl, hkl⟩ := List.exists_mem_of_ne_nil _ hne
  have h1 : kl.2.length ≠ 0 := by
    intro h0
    exact h kl hkl (List.length_eq_zero.mp h0)
  have h2 : kl.2.length ∈ c.map (fun l => l.2.length) := List.mem_map.mpr ⟨kl, hkl, rfl⟩
  have := List.single_le_sum (l := c.map (fun l => l.2.length))
    (fun x _ => Nat.zero_le x) _ h2
  unfold lenDictValues
  omega

/-- Every node of a tree built from a fresh root with a non-empty partition
holds a non-empty partition. -/
lemma decisionTree_nonempty_aux (nb : ℕ) (features : List ℕ) :
    ∀ (d : ℕ) (data : LabelPartition) (oracle : List Bool → ℕ → ℕ × ℕ),
      0 < lenDictValues data →
      ∀ n ∈ (decisionTree (Node.mk data none none none) nb features oracle d).nodes,
        0 < lenDictValues n.data := by
  intro d
  induction d with
  | zero =>
    intro data oracle h n hn
    rcases decisionTree_cases data nb features oracle 0 with heq | ⟨d2, hd2, -, -⟩
    · rw [heq, Node.nodes_leaf] at hn
      rw [List.mem_singleton] at hn
      subst hn
      exact h
    · omega
  | succ d2 ih =>
    intro data oracle h n hn
    rcases decisionTree_cases data nb features oracle (d2 + 1) with heq | ⟨d3, hd3, hg, heq⟩
    · rw [heq, Node.nodes_leaf] at hn
      rw [List.mem_singleton] at hn
      subst hn
      exact h
    · have hd : d3 = d2 := by omega
      subst hd
      have hinv := bestCut_inv data nb features (oracle []) h
      have hc1 : (bestCut data nb features (oracle [])).2.1 ≠ [] := by
        intro hc
        exact hg (hinv.1 (Or.inl hc))
      have hc2 : (bestCut data nb features (oracle [])).2.2.1 ≠ [] := by
        intro hc
        exact hg (hinv.1 (Or.inr hc))
      have hp1 : 0 < lenDictValues (bestCut data nb features (oracle [])).2.1 :=
        lenDictValues_pos_of_entries _ hc1 hinv.2.1
      have hp2 : 0 < lenDictValues (bestCut data nb features (oracle [])).2.2.1 :=
        lenDictValues_pos_of_entries _ hc2 hinv.2.2
      rw [heq, Node.nodes_internal] at hn
      rcases List.mem_cons.mp hn with rfl | hn2
      · exact h
      · rcases List.mem_append.mp hn2 with hleft | hright
        · exact ih _ _ hp1 n hleft
        · exact ih _ _ hp2 n hright

lemma routeLeaf_leaf (d : LabelPartition) (l r : Option Node) (v : Vec) :
    routeLeaf (Node.mk d none l r) v = Node.mk d none l r := rfl

lemma routeLeaf_internal (d : LabelPartition) (q : ℕ × ℚ) (a b : Node) (v : Vec) :
    routeLeaf (Node.mk d (some q) (some a) (some b)) v
      = if v.getD q.1 0 ≤ q.2 then routeLeaf a v else routeLeaf b v := by
  by_cases h : v.getD q.1 0 ≤ q.2
  · rw [routeLeaf, if_pos h]
  · rw [routeLeaf, if_neg h]

lemma decisionTree_routeLeaf_mem (nb : ℕ) (features : List ℕ) :
    ∀ (d : ℕ) (data : LabelPartition) (oracle : List Bool → ℕ → ℕ × ℕ) (v : Vec),
      routeLeaf (decisionTree (Node.mk data none none none) nb features oracle d) v
        ∈ (decisionTree (Node.mk data none none none) nb features oracle d).nodes := by
  intro d
  induction d with
  | zero =>
    intro data oracle v
    rcases decisionTree_cases data nb features oracle 0 with heq | ⟨d2, hd2, -, -⟩
    · rw [heq, routeLeaf_leaf, Node.nodes_leaf]
      exact List.mem_singleton_self _
    · omega
  | succ d2 ih =>
    intro data oracle v
    rcases decisionTree_cases data nb features oracle (d2 + 1) with heq | ⟨d3, hd3, -, heq⟩
    · rw [heq, routeLeaf_leaf, Node.nodes_leaf]
      exact List.mem_singleton_self _
    · have hd : d3 = d2 := by omega
      subst hd
      rw [heq, routeLeaf_internal, Node.nodes_internal]
      by_cases hv : v.getD (bestCut data nb features (oracle [])).2.2.2.1 0
          ≤ (bestCut data nb features (oracle [])).2.2.2.2
      · rw [if_pos hv]
        exact List.mem_cons_of_mem _ (List.mem_append_left _ (ih _ _ v))
      · rw [if_neg hv]
        exact List.mem_cons_of_mem _ (List.mem_append_right _ (ih _ _ v))

/-- C10: every node of a tree built by `decisionTree` from a non-empty
partition holds a non-empty partition (in particular, `infoGain` never divides
by a zero parent count during construction, and the leaf reached by routing
any vector has at least one label to predict), because a candidate cut with an
empty side has information gain exactly 0, and the builder's `gain == 0`
stopping rule then makes the node a leaf. -/
theorem decisionTree_nonempty (data : LabelPartition) (nb : ℕ) (features : List ℕ)
    (oracle : List Bool → ℕ → ℕ × ℕ) (d : ℕ) (h : 0 < lenDictValues data) :
    (∀ n ∈ (decisionTree (Node.mk data none none none) nb features oracle d).nodes,
      0 < lenDictValues n.data) ∧
    (∀ v, 0 < lenDictValues
      ((routeLeaf (decisionTree (Node.mk data none none none) nb features oracle d) v).data)) ∧
    (∀ (data2 : LabelPartition) (features2 : List ℕ) (fI pI : ℕ),
      0 < lenDictValues data2 →
      ((generateCut data2 features2 fI pI).1 = []
        ∨ (generateCut data2 features2 fI pI).2.1 = []) →
      infoGain data2 (generateCut data2 features2 fI pI).1
        (generateCut data2 features2 fI pI).2.1 = 0) := by
  refine ⟨decisionTree_nonempty_aux nb features d data oracle h, ?_, ?_⟩
  · intro v
    exact decisionTree_nonempty_aux nb features d data oracle h _
      (decisionTree_routeLeaf_mem nb features d data oracle v)
  · intro data2 features2 fI pI h2 hdeg
    have hne2 : data2.length ≠ 0 := by
      intro h0
      have : data2 = [] := List.length_eq_zero.mp h0
      subst this
      simp [lenDictValues] at h2
    rcases hdeg with h1 | hr
    · rw [h1]
      exact infoGain_left_empty data2 _
        (generateCut_left_empty data2 features2 fI pI hne2 h1)
    · rw [hr]
      exact infoGain_right_empty data2 _ h2
        (generateCut_right_empty data2 features2 fI pI hne2 hr)

/-- Witness for C10 at a small two-label build. -/
theorem decisionTree_nonempty_witness :
    0 < lenDictValues ([(0, [[1], [3]]), (1, [[2]])] : LabelPartition) ∧
    ((∀ n ∈ (decisionTree (Node.mk [(0, [[1], [3]]), (1, [[2]])] none none none)
        2 [0] (fun _ i => (0, i)) 2).nodes, 0 < lenDictValues n.data) ∧
    (∀ v, 0 < lenDictValues
      ((routeLeaf (decisionTree (Node.mk [(0, [[1], [3]]), (1, [[2]])] none none none)
        2 [0] (fun _ i => (0, i)) 2) v).data)) ∧
    (∀ (data2 : LabelPartition) (features2 : List ℕ) (fI pI : ℕ),
      0 < lenDictValues data2 →
      ((generateCut data2 features2 fI pI).1 = []
        ∨ (generateCut data2 features2 fI pI).2.1 = []) →
      infoGain data2 (generateCut data2 features2 fI pI).1
        (generateCut data2 features2 fI pI).2.1 = 0)) :=
  ⟨by decide, decisionTree_nonempty _ _ _ _ _ (by decide)⟩

/-! ## C2: `classify` -/

lemma maxNat_cons (x : ℕ) (xs : List ℕ) : maxNat (x :: xs) = max x (maxNat xs) := rfl

lemma le_maxNat (l : List ℕ) : ∀ x ∈ l, x ≤ maxNat l := by
  induction l with
  | nil => simp
  | cons y ys ih =>
    intro x hx
    rw [maxNat_cons]
    rcases List.mem_cons.mp hx with rfl | hx2
    · exact le_max_left _ _
    · exact le_trans (ih x hx2) (le_max_right _ _)

lemma argmaxIdx_cons (x : ℕ) (xs : List ℕ) :
    argmaxIdx (x :: xs) = if x < maxNat xs then argmaxIdx xs + 1 else 0 := rfl

lemma argmaxIdx_lt (l : List ℕ) (h : l ≠ []) : argmaxIdx l < l.length := by
  induction l with
  | nil => exact absurd rfl h
  | cons x xs ih =>
    rw [argmaxIdx_cons, List.length_cons]
    by_cases hx : x < maxNat xs
    · have hxs : xs ≠ [] := by
        intro h0
        subst h0
        simp [maxNat] at hx
      have := ih hxs
      rw [if_pos hx]
      omega
    · rw [if_neg hx]
      omega

lemma argmaxIdx_getD (l : List ℕ) (h : l ≠ []) :
    l.getD (argmaxIdx l) 0 = maxNat l := by
  induction l with
  | nil => exact absurd rfl h
  | cons x xs ih =>
    rw [argmaxIdx_cons, maxNat_cons]
    by_cases hx : x < maxNat xs
    · have hxs : xs ≠ [] := by
        intro h0
        subst h0
        simp [maxNat] at hx
      rw [if_pos hx, List.getD_cons_succ, ih hxs, max_eq_right (le_of_lt hx)]
    · rw [if_neg hx, List.getD_cons_zero, max_eq_left (not_lt.mp hx)]

/-- `majorityLabel` is the label of an entry of the partition whose vector
list has maximal length. -/
lemma majorityLabel_spec (data : LabelPartition) (h : data ≠ []) :
    ∃ kl ∈ data, kl.1 = majorityLabel data ∧
      ∀ kl2 ∈ data, kl2.2.length ≤ kl.2.length := by
  have hcounts : data.map (fun kl => kl.2.length) ≠ [] := by
    simpa using h
  have hlt : argmaxIdx (data.map (fun kl => kl.2.length)) < data.length := by
    have := argmaxIdx_lt _ hcounts
    simpa using this
  refine ⟨data.getD (argmaxIdx (data.map (fun kl => kl.2.length))) (0, []), ?_,
    by rw [majorityLabel], ?_⟩
  · rw [List.getD_eq_getElem _ _ hlt]
    exact List.getElem_mem hlt
  · intro kl2 hkl2
    have hmax := argmaxIdx_getD _ hcounts
    have hgetmap : (data.map (fun kl => kl.2.length)).getD
        (argmaxIdx (data.map (fun kl => kl.2.length))) 0
        = (data.getD (argmaxIdx (data.map (fun kl => kl.2.length))) (0, [])).2.length := by
      have hlt2 : argmaxIdx (data.map (fun kl => kl.2.length))
          < (data.map (fun kl => kl.2.length)).length := by
        simpa using hlt
      rw [List.getD_eq_getElem _ _ hlt2, List.getElem_map, ← List.getD_eq_getElem _ _ hlt]
    have hmem : kl2.2.length ∈ data.map (fun kl => kl.2.length) :=
      List.mem_map.mpr ⟨kl2, hkl2, rfl⟩
    have := le_maxNat _ _ hmem
    rw [← hmax, hgetmap] at this
    exact this

lemma classify_leaf (d : LabelPartition) (l r : Option Node) (v : Vec) :
    classify (Node.mk d none l r) v = some (majorityLabel d) := rfl

lemma Node.isLeaf_childless (d : LabelPartition) (q : Option (ℕ × ℚ)) :
    (Node.mk d q none none).isLeaf = true := rfl

lemma Node.isLeaf_internal (d : LabelPartition) (q : Option (ℕ × ℚ)) (a b : Node) :
    (Node.mk d q (some a) (some b)).isLeaf = false := rfl

lemma classify_internal (d : LabelPartition) (q : ℕ × ℚ) (a b : Node) (v : Vec) :
    classify (Node.mk d (some q) (some a) (some b)) v
      = if v.getD q.1 0 ≤ q.2
        then (if a.isLeaf then some (majorityLabel a.data) else classify a v)
        else (if b.isLeaf then some (majorityLabel b.data) else classify b v) := by
  by_cases h : v.getD q.1 0 ≤ q.2
  · rw [classify, if_pos h]
  · rw [classify, if_neg h]

lemma classify_internal2 (d : LabelPartition) (f : ℕ) (t : ℚ) (a b : Node) (v : Vec) :
    classify (Node.mk d (some (f, t)) (some a) (some b)) v
      = if v.getD f 0 ≤ t
        then (if a.isLeaf then some (majorityLabel a.data) else classify a v)
        else (if b.isLeaf then some (majorityLabel b.data) else classify b v) :=
  classify_internal d (f, t) a b v

lemma routeLeaf_internal2 (d : LabelPartition) (f : ℕ) (t : ℚ) (a b : Node) (v : Vec) :
    routeLeaf (Node.mk d (some (f, t)) (some a) (some b)) v
      = if v.getD f 0 ≤ t then routeLeaf a v else routeLeaf b v :=
  routeLeaf_internal d (f, t) a b v

/-- Along a built tree, `classify` terminates with the majority label of the
leaf that the spec-side routing (`routeLeaf`) reaches, and that leaf is a
genuine leaf: no question, no children. -/
lemma decisionTree_classify_eq (nb : ℕ) (features : List ℕ) :
    ∀ (d : ℕ) (data : LabelPartition) (oracle : List Bool → ℕ → ℕ × ℕ) (v : Vec),
      classify (decisionTree (Node.mk data none none none) nb features oracle d) v
        = some (majorityLabel
            ((routeLeaf (decisionTree (Node.mk data none none none) nb features oracle d)
              v).data)) ∧
      (routeLeaf (decisionTree (Node.mk data none none none) nb features oracle d)
        v).question = none ∧
      (routeLeaf (decisionTree (Node.mk data none none none) nb features oracle d)
        v).left_son = none ∧
      (routeLeaf (decisionTree (Node.mk data none none none) nb features oracle d)
        v).right_son = none := by
  intro d
  induction d with
  | zero =>
    intro data oracle v
    rcases decisionTree_cases data nb features oracle 0 with heq | ⟨d2, hd2, -, -⟩
    · rw [heq, routeLeaf_leaf, classify_leaf]
      exact ⟨rfl, rfl, rfl, rfl⟩
    · omega
  | succ d2 ih =>
    intro data oracle v
    rcases decisionTree_cases data nb features oracle (d2 + 1) with heq | ⟨d3, hd3, -, heq⟩
    · rw [heq, routeLeaf_leaf, classify_leaf]
      exact ⟨rfl, rfl, rfl, rfl⟩
    · have hd : d3 = d2 := by omega
      rw [hd] at heq
      rw [heq, classify_internal2, routeLeaf_internal2]
      by_cases hv : v.getD (bestCut data nb features (oracle [])).2.2.2.1 0
          ≤ (bestCut data nb features (oracle [])).2.2.2.2
      · simp only [if_pos hv]
        rcases decisionTree_cases (bestCut data nb features (oracle [])).2.1 nb features
            (fun p => oracle (false :: p)) d2 with ht1 | ⟨d4, hd4, -, ht1⟩
        · rw [ht1, Node.isLeaf_childless]
          simp only [if_true]
          rw [routeLeaf_leaf]
          exact ⟨rfl, rfl, rfl, rfl⟩
        · have hleaf : (decisionTree
              (Node.mk (bestCut data nb features (oracle [])).2.1 none none none)
              nb features (fun p => oracle (false :: p)) d2).isLeaf = false := by
            rw [ht1, Node.isLeaf_internal]
          rw [hleaf]
          simp only [Bool.false_eq_true, if_false]
          exact ih _ _ v
      · simp only [if_neg hv]
        rcases decisionTree_cases (bestCut data nb features (oracle [])).2.2.1 nb features
            (fun p => oracle (true :: p)) d2 with ht2 | ⟨d4, hd4, -, ht2⟩
        · rw [ht2, Node.isLeaf_childless]
          simp only [if_true]
          rw [routeLeaf_leaf]
          exact ⟨rfl, rfl, rfl, rfl⟩
        · have hleaf : (decisionTree
              (Node.mk (bestCut data nb features (oracle [])).2.2.1 none none none)
              nb features (fun p => oracle (true :: p)) d2).isLeaf = false := by
            rw [ht2, Node.isLeaf_internal]
          rw [hleaf]
          simp only [Bool.false_eq_true, if_false]
          exact ih _ _ v

/-- C2: on a tree built by `decisionTree` from a non-empty partition,
`classify` terminates and returns exactly the majority label of the leaf
reached by routing `v` (left at an internal node iff
`v[featureIndex] ≤ threshold`, as `routeLeaf` routes); that routed node is a
genuine leaf, and the returned label is present in the leaf's partition, being
the label whose vector list in that leaf is largest. -/
theorem classify_spec (data : LabelPartition) (nb : ℕ) (features : List ℕ)
    (oracle : List Bool → ℕ → ℕ × ℕ) (d : ℕ) (h : 0 < lenDictValues data) (v : Vec) :
    classify (decisionTree (Node.mk data none none none) nb features oracle d) v
      = some (majorityLabel
          ((routeLeaf (decisionTree (Node.mk data none none none) nb features oracle d)
            v).data)) ∧
    (routeLeaf (decisionTree (Node.mk data none none none) nb features oracle d)
      v).question = none ∧
    (routeLeaf (decisionTree (Node.mk data none none none) nb features oracle d)
      v).left_son = none ∧
    (routeLeaf (decisionTree (Node.mk data none none none) nb features oracle d)
      v).right_son = none ∧
    majorityLabel ((routeLeaf (decisionTree (Node.mk data none none none) nb features
        oracle d) v).data)
      ∈ ((routeLeaf (decisionTree (Node.mk data none none none) nb features oracle d)
          v).data).map Prod.fst ∧
    ∃ kl ∈ (routeLeaf (decisionTree (Node.mk data none none none) nb features oracle d)
        v).data,
      kl.1 = majorityLabel ((routeLeaf (decisionTree (Node.mk data none none none)
        nb features oracle d) v).data) ∧
      ∀ kl2 ∈ (routeLeaf (decisionTree (Node.mk data none none none) nb features
          oracle d) v).data,
        kl2.2.length ≤ kl.2.length := by
  obtain ⟨hcl, hq, hl, hr⟩ := decisionTree_classify_eq nb features d data oracle v
  have hpos : 0 < lenDictValues
      ((routeLeaf (decisionTree (Node.mk data none none none) nb features oracle d)
        v).data) :=
    decisionTree_nonempty_aux nb features d data oracle h _
      (decisionTree_routeLeaf_mem nb features d data oracle v)
  have hne : (routeLeaf (decisionTree (Node.mk data none none none) nb features oracle d)
      v).data ≠ [] := by
    intro h0
    rw [h0] at hpos
    simp [lenDictValues] at hpos
  obtain ⟨kl, hmem, hlab, hmax⟩ := majorityLabel_spec _ hne
  refine ⟨hcl, hq, hl, hr, ?_, kl, hmem, hlab, hmax⟩
  exact List.mem_map.mpr ⟨kl, hmem, hlab⟩

/-- Witness for C2: classifying `[5]` with a tree built at depth budget 2. -/
theorem classify_spec_witness :
    0 < lenDictValues ([(0, [[1], [3]]), (1, [[2]])] : LabelPartition) ∧
    (classify (decisionTree (Node.mk [(0, [[1], [3]]), (1, [[2]])] none none none)
        2 [0] (fun _ i => (0, i)) 2) [5]
      = some (majorityLabel
          ((routeLeaf (decisionTree (Node.mk [(0, [[1], [3]]), (1, [[2]])] none none none)
            2 [0] (fun _ i => (0, i)) 2) [5]).data)) ∧
    (routeLeaf (decisionTree (Node.mk [(0, [[1], [3]]), (1, [[2]])] none none none)
      2 [0] (fun _ i => (0, i)) 2) [5]).question = none ∧
    (routeLeaf (decisionTree (Node.mk [(0, [[1], [3]]), (1, [[2]])] none none none)
      2 [0] (fun _ i => (0, i)) 2) [5]).left_son = none ∧
    (routeLeaf (decisionTree (Node.mk [(0, [[1], [3]]), (1, [[2]])] none none none)
      2 [0] (fun _ i => (0, i)) 2) [5]).right_son = none ∧
    majorityLabel ((routeLeaf (decisionTree
        (Node.mk [(0, [[1], [3]]), (1, [[2]])] none none none)
        2 [0] (fun _ i => (0, i)) 2) [5]).data)
      ∈ ((routeLeaf (decisionTree (Node.mk [(0, [[1], [3]]), (1, [[2]])] none none none)
          2 [0] (fun _ i => (0, i)) 2) [5]).data).map Prod.fst ∧
    ∃ kl ∈ (routeLeaf (decisionTree (Node.mk [(0, [[1], [3]]), (1, [[2]])] none none none)
        2 [0] (fun _ i => (0, i)) 2) [5]).data,
      kl.1 = majorityLabel ((routeLeaf (decisionTree
        (Node.mk [(0, [[1], [3]]), (1, [[2]])] none none none)
        2 [0] (fun _ i => (0, i)) 2) [5]).data) ∧
      ∀ kl2 ∈ (routeLeaf (decisionTree
          (Node.mk [(0, [[1], [3]]), (1, [[2]])] none none none)
          2 [0] (fun _ i => (0, i)) 2) [5]).data,
        kl2.2.length ≤ kl.2.length) :=
  ⟨by decide, classify_spec _ _ _ _ _ (by decide) _⟩

/-- Witness for C6 at the root of a depth-0 build (a leaf). -/
theorem decisionTree_node_shape_witness :
    (Node.mk [(0, [[(1 : ℚ)]])] none none none)
      ∈ (decisionTree (Node.mk [(0, [[(1 : ℚ)]])] none none none) 1 [0]
          (fun _ _ => (0, 0)) 0).nodes ∧
    (((Node.mk [(0, [[(1 : ℚ)]])] none none none).question.isSome ↔
        ((Node.mk [(0, [[(1 : ℚ)]])] none none none).left_son.isSome ∧
         (Node.mk [(0, [[(1 : ℚ)]])] none none none).right_son.isSome)) ∧
     ((Node.mk [(0, [[(1 : ℚ)]])] none none none).left_son.isSome ↔
        (Node.mk [(0, [[(1 : ℚ)]])] none none none).right_son.isSome) ∧
     ((Node.mk [(0, [[(1 : ℚ)]])] none none none).question = none →
        (Node.mk [(0, [[(1 : ℚ)]])] none none none).left_son = none ∧
        (Node.mk [(0, [[(1 : ℚ)]])] none none none).right_son = none)) :=
  have hmem : (Node.mk [(0, [[(1 : ℚ)]])] none none none)
      ∈ (decisionTree (Node.mk [(0, [[(1 : ℚ)]])] none none none) 1 [0]
          (fun _ _ => (0, 0)) 0).nodes := by
    rw [decisionTree_stop _ _ _ _ 0 (Or.inr (Or.inr (Node.depth_leaf _ _))), Node.nodes_leaf]
    exact List.mem_singleton_self _
  ⟨hmem, decisionTree_node_shape _ 1 [0] (fun _ _ => (0, 0)) 0 _ hmem⟩
